import Mathlib

/-!
# The pintos priority queue (`pp1/lib/kernel/priority_queue.c`)

A shallow embedding of the doubly linked, sentinel-bounded priority queue and of
the heap algorithms that run over it.

* Memory is a total map from cell numbers to `pq_elem` records; a pointer is an
  `Option Nat`, with `none` for `NULL`.
* A `struct pq` holds its two sentinels in two consecutive cells.
* Every C function becomes a function on memory that returns in `Except Err`:
  `Err.fault` is a fatal stop (a `NULL` dereference or a failed `ASSERT`),
  `Err.timeout` means that the fuel given to an unbounded loop or recursion
  ran out.
* `ASSERT` comes from `debug.h`, which is not part of the sources at hand.  The
  functions whose `ASSERT` evaluates a call take a flag `dbg`: with `dbg = true`
  the condition is evaluated and a false condition is fatal, with `dbg = false`
  the macro expands to nothing.
* `int` is the 32-bit signed type of the target: the products and sums that the code
  computes in `int` (`id * 2`, `id * 2 + 1`, `before->id + 1`) wrap around through
  `wrap_int`; `id / 2` and the loop counters cannot leave the range.
-/

namespace PintosPQ

/-! ## Data model -/

/-- A pointer to a `struct pq_elem`; `none` is `NULL`. -/
abbrev Ptr := Option Nat

/-- The record `struct pq_elem`: sequence links, cached heap links, rank and key. -/
structure pq_elem where
  prev : Ptr
  next : Ptr
  parent : Ptr
  left : Ptr
  right : Ptr
  id : Int
  priority : Int
  deriving DecidableEq

/-- Memory: every cell holds a `pq_elem`. -/
abbrev Mem := Nat → pq_elem

/-- The record `struct pq`: the head sentinel lives in cell `base`, the tail sentinel
in cell `base + 1`. -/
structure pq where
  base : Nat

/-- The address `&pq->head`. -/
def pq.head (q : pq) : Nat := q.base

/-- The address `&pq->tail`. -/
def pq.tail (q : pq) : Nat := q.base + 1

/-- Ways in which a call fails to return. -/
inductive Err where
  | fault
  | timeout
  deriving DecidableEq, Repr

deriving instance DecidableEq for Except

/-- Dereferencing: `NULL` is fatal. -/
def deref (p : Ptr) : Except Err Nat :=
  match p with
  | some a => .ok a
  | none => .error .fault

/-! ### Field writes -/

/-- The write `a->prev = v`. -/
def set_prev (m : Mem) (a : Nat) (v : Ptr) : Mem :=
  fun x => if x = a then { m a with prev := v } else m x

/-- The write `a->next = v`. -/
def set_next (m : Mem) (a : Nat) (v : Ptr) : Mem :=
  fun x => if x = a then { m a with next := v } else m x

/-- The write `a->parent = v`. -/
def set_parent (m : Mem) (a : Nat) (v : Ptr) : Mem :=
  fun x => if x = a then { m a with parent := v } else m x

/-- The write `a->left = v`. -/
def set_left (m : Mem) (a : Nat) (v : Ptr) : Mem :=
  fun x => if x = a then { m a with left := v } else m x

/-- The write `a->right = v`. -/
def set_right (m : Mem) (a : Nat) (v : Ptr) : Mem :=
  fun x => if x = a then { m a with right := v } else m x

/-- The write `a->id = v`. -/
def set_id (m : Mem) (a : Nat) (v : Int) : Mem :=
  fun x => if x = a then { m a with id := v } else m x

/-- The write `a->priority = v`. -/
def set_priority (m : Mem) (a : Nat) (v : Int) : Mem :=
  fun x => if x = a then { m a with priority := v } else m x

/-! ## Sequence container -/

/-- The function `pq_init`: links the two sentinels to each other and sets `head.id = 0`.
Nothing else is written; in particular `tail.id` keeps whatever it held. -/
def pq_init (m : Mem) (q : pq) : Mem :=
  let m := set_prev m q.head none
  let m := set_next m q.head (some q.tail)
  let m := set_prev m q.tail (some q.head)
  let m := set_next m q.tail none
  set_id m q.head 0

/-- The value a C `int` holds after a computation whose exact result is `x`: the result
reduced modulo `2 ^ 32` into the range `-2 ^ 31 .. 2 ^ 31 - 1`. -/
def wrap_int (x : Int) : Int := (x + 2147483648) % 4294967296 - 2147483648

/-- The loop of `parent`: up to `k` steps backwards; a step whose target has no `prev`
(the head sentinel) returns `NULL` instead. -/
def parent_loop (m : Mem) : Nat → Nat → Except Err Ptr
  | 0, e => .ok (some e)
  | k + 1, e => do
    let p ← deref (m e).prev
    if (m p).prev = none then .ok none else parent_loop m k p

/-- The function `parent`: `i = id / 2` (C division), and the loop
`for (j = id; j > i; j--)` makes `id - i` rounds when that is positive, none otherwise. -/
def parent (m : Mem) (elem : Ptr) : Except Err Ptr := do
  let e ← deref elem
  let i := Int.tdiv (m e).id 2
  parent_loop m (Int.toNat ((m e).id - i)) e

/-- The loop shared by `left` and `right`: up to `k` steps forwards; a step whose target
has no `next` (the tail sentinel) returns `NULL` instead. -/
def child_loop (m : Mem) : Nat → Nat → Except Err Ptr
  | 0, e => .ok (some e)
  | k + 1, e => do
    let n ← deref (m e).next
    if (m n).next = none then .ok none else child_loop m k n

/-- The function `left`: `int i = elem->id * 2` (wrapping), loop
`for (j = id; j < i; j++)`, which makes `i - id` rounds when that is positive. -/
def left (m : Mem) (elem : Ptr) : Except Err Ptr := do
  let e ← deref elem
  let i := wrap_int ((m e).id * 2)
  child_loop m (Int.toNat (i - (m e).id)) e

/-- The function `right`: `int i = elem->id * 2 + 1` (wrapping), loop
`for (j = id; j < i; j++)`, which makes `i - id` rounds when that is positive. -/
def right (m : Mem) (elem : Ptr) : Except Err Ptr := do
  let e ← deref elem
  let i := wrap_int ((m e).id * 2 + 1)
  child_loop m (Int.toNat (i - (m e).id)) e

/-- The function `pq_insert`: splice `elem` in front of `before`, then fill the heap
fields in source order: `parent`, `left`, `right` (all three computed while `elem->id`
still holds its old value), then `id`, then `priority`.  The first line covers
`ASSERT (elem != NULL)`: a `NULL` element is fatal with or without the check. -/
def pq_insert (m : Mem) (before elem : Ptr) (priority : Int) : Except Err Mem := do
  let e ← deref elem
  let b ← deref before
  let m := set_prev m e (m b).prev
  let m := set_next m e (some b)
  let bp ← deref (m b).prev
  let m := set_next m bp (some e)
  let m := set_prev m b (some e)
  let m := set_parent m e (← parent m (some e))
  let m := set_left m e (← left m (some e))
  let m := set_right m e (← right m (some e))
  let m := set_id m e (wrap_int ((m b).id + 1))
  pure (set_priority m e priority)

/-- The function `pq_remove`: unlink `elem`, return the element that followed it. -/
def pq_remove (m : Mem) (elem : Ptr) : Except Err (Ptr × Mem) := do
  let e ← deref elem
  let p ← deref (m e).prev
  let m := set_next m p (m e).next
  let n ← deref (m e).next
  let m := set_prev m n (m e).prev
  pure ((m e).next, m)

/-- The function `pq_head`. -/
def pq_head (q : pq) : Ptr := some q.head

/-- The function `pq_tail`. -/
def pq_tail (q : pq) : Ptr := some q.tail

/-- The function `pq_front`: `ASSERT (!pq_empty (pq)); return pq->head.next;`.
When the assertion is evaluated it calls `pq_empty`, whose body
`pq_front (pq) == pq_tail (pq)` calls `pq_front` again.  To keep the recursion
structural in `fuel` the body of `pq_empty` stands here in place of the call;
`pq_front_checked_step` below restates the equation with the call to `pq_empty`. -/
def pq_front (dbg : Bool) (fuel : Nat) (m : Mem) (q : pq) : Except Err Ptr :=
  if dbg then
    match fuel with
    | 0 => .error .timeout
    | fuel + 1 =>
      match (match pq_front dbg fuel m q with
             | .ok f => (.ok (f == pq_tail q) : Except Err Bool)
             | .error err => .error err) with
      | .ok true => .error .fault
      | .ok false => .ok (m q.head).next
      | .error err => .error err
  else .ok (m q.head).next

/-- The function `pq_empty`: `return pq_front (pq) == pq_tail (pq);`. -/
def pq_empty (dbg : Bool) (fuel : Nat) (m : Mem) (q : pq) : Except Err Bool :=
  match pq_front dbg fuel m q with
  | .ok f => .ok (f == pq_tail q)
  | .error err => .error err

/-- The function `pq_back`: `ASSERT (!pq_empty (pq)); return pq->tail.prev;`. -/
def pq_back (dbg : Bool) (fuel : Nat) (m : Mem) (q : pq) : Except Err Ptr :=
  if dbg then
    match pq_empty dbg fuel m q with
    | .ok true => .error .fault
    | .ok false => .ok (m q.tail).prev
    | .error err => .error err
  else .ok (m q.tail).prev

/-- The function `pq_push_front`: `pq_insert (pq_head (pq), elem, priority)`. -/
def pq_push_front (m : Mem) (q : pq) (elem : Ptr) (priority : Int) : Except Err Mem :=
  pq_insert m (pq_head q) elem priority

/-- The function `pq_push_back`: `pq_insert (pq_back (pq), elem, priority)`. -/
def pq_push_back (dbg : Bool) (fuel : Nat) (m : Mem) (q : pq) (elem : Ptr)
    (priority : Int) : Except Err Mem := do
  let b ← pq_back dbg fuel m q
  pq_insert m b elem priority

/-- The function `pq_pop_front`: remove the front element and return it. -/
def pq_pop_front (dbg : Bool) (fuel : Nat) (m : Mem) (q : pq) : Except Err (Ptr × Mem) := do
  let front ← pq_front dbg fuel m q
  let r ← pq_remove m front
  pure (front, r.2)

/-- The function `pq_pop_back`: remove the back element and return it. -/
def pq_pop_back (dbg : Bool) (fuel : Nat) (m : Mem) (q : pq) : Except Err (Ptr × Mem) := do
  let back ← pq_back dbg fuel m q
  let r ← pq_remove m back
  pure (back, r.2)

/-- The loop of `pq_size`: `for (...; elem != pq_tail (pq); elem = elem->next) cnt++;`. -/
def pq_size_loop (m : Mem) (q : pq) : Nat → Ptr → Nat → Except Err Nat
  | 0, _, _ => .error .timeout
  | fuel + 1, elem, cnt =>
    if elem = pq_tail q then .ok cnt
    else do
      let e ← deref elem
      pq_size_loop m q fuel (m e).next (cnt + 1)

/-- The function `pq_size`: the loop starts at `pq_front (pq)`. -/
def pq_size (dbg : Bool) (fuel : Nat) (m : Mem) (q : pq) : Except Err Nat := do
  let f ← pq_front dbg fuel m q
  pq_size_loop m q fuel f 0

/-! ## Heap algorithms -/

/-- The function `exchange`: swap the two `priority` fields. -/
def exchange (m : Mem) (fst snd : Ptr) : Except Err Mem := do
  let f ← deref fst
  let s ← deref snd
  let tmp := (m f).priority
  let m := set_priority m f (m s).priority
  pure (set_priority m s tmp)

/-- The function `max_heapify`: pick the largest of `elem` and its cached children,
swap priorities with it and recurse into it when it is not `elem` itself. -/
def max_heapify : Nat → Mem → Ptr → Except Err Mem
  | 0, _, _ => .error .timeout
  | fuel + 1, m, elem => do
    let e ← deref elem
    let left := (m e).left
    let right := (m e).right
    let largest : Ptr :=
      match left with
      | some l => if (m l).priority > (m e).priority then left else elem
      | none => elem
    let largest : Ptr ←
      match right with
      | some r => do
        let lg ← deref largest
        pure (if (m r).priority > (m lg).priority then right else largest)
      | none => pure largest
    if largest ≠ elem then do
      let m ← exchange m elem largest
      max_heapify fuel m largest
    else pure m

/-- The loop of `build_max_heap`:
`for (elem = pq->tail.prev; elem != pq->head.next; elem = elem->prev) max_heapify (elem);`. -/
def build_max_heap_loop (q : pq) : Nat → Mem → Ptr → Except Err Mem
  | 0, _, _ => .error .timeout
  | fuel + 1, m, elem =>
    if elem = (m q.head).next then .ok m
    else do
      let m ← max_heapify fuel m elem
      let e ← deref elem
      build_max_heap_loop q fuel m (m e).prev

/-- The function `build_max_heap`. -/
def build_max_heap (fuel : Nat) (m : Mem) (q : pq) : Except Err Mem :=
  build_max_heap_loop q fuel m (m q.tail).prev

/-- The function `heap_maximum`: `return pq_front (pq);`. -/
def heap_maximum (dbg : Bool) (fuel : Nat) (m : Mem) (q : pq) : Except Err Ptr :=
  pq_front dbg fuel m q

/-- The function `heap_extract_max`: `return pq_pop_front (pq);`. -/
def heap_extract_max (dbg : Bool) (fuel : Nat) (m : Mem) (q : pq) :
    Except Err (Ptr × Mem) :=
  pq_pop_front dbg fuel m q

/-- The function `percolate`:
`while (elem->prev->prev->prev != NULL && elem->parent->priority < elem->priority)`
`{ exchange (elem, elem->parent); elem = elem->parent; }`. -/
def percolate : Nat → Mem → Ptr → Except Err Mem
  | 0, _, _ => .error .timeout
  | fuel + 1, m, elem => do
    let e ← deref elem
    let p1 ← deref (m e).prev
    let p2 ← deref (m p1).prev
    if (m p2).prev = none then pure m
    else do
      let par ← deref (m e).parent
      if (m par).priority < (m e).priority then do
        let m ← exchange m elem (m e).parent
        percolate fuel m (m e).parent
      else pure m

/-- The function `heap_increase_key`: `elem->priority = key; percolate (elem);`. -/
def heap_increase_key (fuel : Nat) (m : Mem) (elem : Ptr) (key : Int) : Except Err Mem := do
  let e ← deref elem
  let m := set_priority m e key
  percolate fuel m elem

/-- The function `max_heap_insert`: `pq_push_back (pq, elem, priority); percolate (elem);`. -/
def max_heap_insert (dbg : Bool) (fuel : Nat) (m : Mem) (q : pq) (elem : Ptr)
    (priority : Int) : Except Err Mem := do
  let m ← pq_push_back dbg fuel m q elem priority
  percolate fuel m elem

/-! ## Specification vocabulary -/

/-- Consecutive cells of a chain point at each other through `next` and `prev`. -/
def linked (m : Mem) : List Nat → Prop
  | [] => True
  | [_] => True
  | a :: b :: rest => ((m a).next = some b ∧ (m b).prev = some a) ∧ linked m (b :: rest)

instance linked_decidable (m : Mem) : (l : List Nat) → Decidable (linked m l)
  | [] => isTrue trivial
  | [_] => isTrue trivial
  | a :: b :: rest =>
    match linked_decidable m (b :: rest) with
    | isTrue h =>
      if h1 : (m a).next = some b ∧ (m b).prev = some a then isTrue ⟨h1, h⟩
      else isFalse (fun hh => h1 hh.1)
    | isFalse h => isFalse (fun hh => h hh.2)

/-- Well-formed container with live sequence `L`: the cells `head, L, tail` are pairwise
distinct, `head.prev` and `tail.next` are `NULL`, and neighbours are linked both ways. -/
def WF (m : Mem) (q : pq) (L : List Nat) : Prop :=
  (q.head :: (L ++ [q.tail])).Nodup ∧ (m q.head).prev = none ∧ (m q.tail).next = none ∧
    linked m (q.head :: (L ++ [q.tail]))

instance WF_decidable (m : Mem) (q : pq) (L : List Nat) : Decidable (WF m q L) := by
  unfold WF; infer_instance

/-- The node at 1-based position `k` of the live sequence, `NULL` when there is none. -/
def node_at (L : List Nat) (k : Nat) : Ptr :=
  if k = 0 then none else L[k - 1]?

/-- Rank invariant: the `id` of the node at position `k` is `k`. -/
def rank_inv (m : Mem) (L : List Nat) : Prop :=
  ∀ k (h : k < L.length), (m L[k]).id = (k : Int) + 1

instance rank_inv_decidable (m : Mem) (L : List Nat) : Decidable (rank_inv m L) := by
  unfold rank_inv; infer_instance

/-- Cached children are right: the node at position `k` caches the nodes at positions
`2 * k` and `2 * k + 1`, `NULL` past the end. -/
def children_inv (m : Mem) (L : List Nat) : Prop :=
  ∀ k (h : k < L.length),
    (m L[k]).left = node_at L (2 * (k + 1)) ∧ (m L[k]).right = node_at L (2 * (k + 1) + 1)

instance children_inv_decidable (m : Mem) (L : List Nat) : Decidable (children_inv m L) := by
  unfold children_inv; infer_instance

/-- Cached parents are right: the node at position `k` caches the node at position `k / 2`. -/
def parent_inv (m : Mem) (L : List Nat) : Prop :=
  ∀ k (h : k < L.length), (m L[k]).parent = node_at L ((k + 1) / 2)

instance parent_inv_decidable (m : Mem) (L : List Nat) : Decidable (parent_inv m L) := by
  unfold parent_inv; infer_instance

/-- The priority behind a pointer, when there is a node behind it. -/
def prio (m : Mem) (p : Ptr) : Option Int := p.map (fun a => (m a).priority)

/-- The priority `x` dominates the node behind `p`, if any. -/
def dominates (m : Mem) (x : Int) (p : Ptr) : Prop :=
  ∀ c, p = some c → (m c).priority ≤ x

instance dominates_decidable (m : Mem) (x : Int) (p : Ptr) : Decidable (dominates m x p) :=
  match p with
  | none => isTrue (fun _ h => by cases h)
  | some c =>
    if h : (m c).priority ≤ x then isTrue (fun _ hc => by cases hc; exact h)
    else isFalse (fun hh => h (hh c rfl))

/-- Max-heap invariant through the cached links: every live node dominates the nodes
behind its `left` and `right` fields. -/
def heap_inv (m : Mem) (L : List Nat) : Prop :=
  ∀ k (h : k < L.length),
    dominates m (m L[k]).priority (m L[k]).left ∧ dominates m (m L[k]).priority (m L[k]).right

instance heap_inv_decidable (m : Mem) (L : List Nat) : Decidable (heap_inv m L) := by
  unfold heap_inv; infer_instance

/-- Max-heap invariant by position: the node at position `k` dominates the nodes at
positions `2 * k` and `2 * k + 1`. -/
def heap_pos_inv (m : Mem) (L : List Nat) : Prop :=
  ∀ k (h : k < L.length),
    dominates m (m L[k]).priority (node_at L (2 * (k + 1))) ∧
      dominates m (m L[k]).priority (node_at L (2 * (k + 1) + 1))

instance heap_pos_inv_decidable (m : Mem) (L : List Nat) : Decidable (heap_pos_inv m L) := by
  unfold heap_pos_inv; infer_instance

/-- The priorities along a list of cells. -/
def prios (m : Mem) (L : List Nat) : List Int := L.map (fun a => (m a).priority)

/-! ## Concrete states -/

/-- The container record used in the examples: sentinels in cells `0` and `1`. -/
def q0 : pq := { base := 0 }

/-- A memory in which every cell is zeroed. -/
def blank : Mem := fun _ =>
  { prev := none, next := none, parent := none, left := none, right := none,
    id := 0, priority := 0 }

/-- A cell with given links, rank and key. -/
def cell (prev next parent left right : Ptr) (id priority : Int) : pq_elem :=
  { prev := prev, next := next, parent := parent, left := left, right := right,
    id := id, priority := priority }

/-- Four live nodes in cells `2, 3, 4, 5` with priorities `1, 2, 3, 4`, ranks `1..4`
and every cached link in place. -/
def mem_1234 : Mem := fun a =>
  match a with
  | 0 => cell none (some 2) none none none 0 0
  | 1 => cell (some 5) none none none none 0 0
  | 2 => cell (some 0) (some 3) none (some 3) (some 4) 1 1
  | 3 => cell (some 2) (some 4) (some 2) (some 5) none 2 2
  | 4 => cell (some 3) (some 5) (some 2) none none 3 3
  | 5 => cell (some 4) (some 1) (some 3) none none 4 4
  | _ => cell none none none none none 0 0

/-- Two live nodes in cells `2, 3` with priorities `9, 8`, ranks `1, 2` and every cached
link in place: a max-heap. -/
def mem_98 : Mem := fun a =>
  match a with
  | 0 => cell none (some 2) none none none 0 0
  | 1 => cell (some 3) none none none none 0 0
  | 2 => cell (some 0) (some 3) none (some 3) none 1 9
  | 3 => cell (some 2) (some 1) (some 2) none none 2 8
  | _ => cell none none none none none 0 0

/-- Two live nodes in cells `2, 3` with priorities `5, 3`, ranks `1, 2` and every cached
link in place: a max-heap whose second node is a leaf with the front as parent. -/
def mem_53 : Mem := fun a =>
  match a with
  | 0 => cell none (some 2) none none none 0 0
  | 1 => cell (some 3) none none none none 0 0
  | 2 => cell (some 0) (some 3) none (some 3) none 1 5
  | 3 => cell (some 2) (some 1) (some 2) none none 2 3
  | _ => cell none none none none none 0 0

/-- One live node in cell `2` with priority `4` and rank `1`. -/
def mem_4 : Mem := fun a =>
  match a with
  | 0 => cell none (some 2) none none none 0 0
  | 1 => cell (some 2) none none none none 0 0
  | 2 => cell (some 0) (some 1) none none none 1 4
  | _ => cell none none none none none 0 0

/-! ## Test drivers -/

/-- Insert the listed `(node, priority)` pairs one after the other with `pq_push_back`. -/
def push_back_all (dbg : Bool) (fuel : Nat) (q : pq) : Mem → List (Nat × Int) → Except Err Mem
  | m, [] => .ok m
  | m, (e, p) :: rest => do
    let m ← pq_push_back dbg fuel m q (some e) p
    push_back_all dbg fuel q m rest

/-- Scenario A: `pq_init`, one `pq_push_back` per pair, then `build_max_heap`; the result
is the priority of the front node. -/
def push_back_build_front (dbg : Bool) (fuel : Nat) (m : Mem) (q : pq)
    (nodes : List (Nat × Int)) : Except Err (Option Int) := do
  let m ← push_back_all dbg fuel q (pq_init m q) nodes
  let m ← build_max_heap fuel m q
  pure (prio m (m q.head).next)

/-- Insert the listed `(node, priority)` pairs one after the other with `max_heap_insert`. -/
def max_heap_insert_all (dbg : Bool) (fuel : Nat) (q : pq) :
    Mem → List (Nat × Int) → Except Err Mem
  | m, [] => .ok m
  | m, (e, p) :: rest => do
    let m ← max_heap_insert dbg fuel m q (some e) p
    max_heap_insert_all dbg fuel q m rest

/-- Scenario C: `pq_init`, one `max_heap_insert` per pair; the result is the priority of
the front node. -/
def heap_insert_front (dbg : Bool) (fuel : Nat) (m : Mem) (q : pq)
    (nodes : List (Nat × Int)) : Except Err (Option Int) := do
  let m ← max_heap_insert_all dbg fuel q (pq_init m q) nodes
  pure (prio m (m q.head).next)

/-- The nodes and priorities of scenario A: cells `2..11` carry `4,1,3,2,16,9,10,14,8,7`. -/
def scenario_A : List (Nat × Int) :=
  [(2, 4), (3, 1), (4, 3), (5, 2), (6, 16), (7, 9), (8, 10), (9, 14), (10, 8), (11, 7)]

/-- The nodes and priorities of scenario C: cells `2, 3, 4` carry `1, 2, 3`. -/
def scenario_C : List (Nat × Int) := [(2, 1), (3, 2), (4, 3)]

/-! ## Auxiliary definitions for the proofs -/

/-- The memory after `pq_remove` of a cell whose neighbours are `a` and `b`. -/
def unlinked (m : Mem) (a b : Nat) : Mem := set_prev (set_next m a (some b)) b (some a)

/-- The memory after the four link writes of `pq_insert`, for `before = b`, `elem = e`
and `a` the cell in front of `b`. -/
def spliced (m : Mem) (a b e : Nat) : Mem :=
  set_prev (set_next (set_next (set_prev m e (some a)) e (some b)) a (some e)) b (some e)

/-- The live sequence after inserting `e` in front of `b`: in front of the first
occurrence of `b`, at the end when `b` is not a live node (it is the tail sentinel). -/
def insert_before (b e : Nat) : List Nat → List Nat
  | [] => [e]
  | x :: r => if x = b then e :: x :: r else x :: insert_before b e r

/-- One structural call on the container. -/
inductive Op where
  | insert (before node : Nat) (priority : Int)
  | remove (node : Nat)

/-- Run one call: `pq_insert (before, node, priority)` or `pq_remove (node)`. -/
def run_op (m : Mem) : Op → Except Err Mem
  | .insert b e p => pq_insert m (some b) (some e) p
  | .remove x => (pq_remove m (some x)).map Prod.snd

/-- Run a sequence of calls, first to last. -/
def run_ops : Mem → List Op → Except Err Mem
  | m, [] => .ok m
  | m, op :: rest => do
    let m ← run_op m op
    run_ops m rest

/-- The number of inserts of a sequence of calls. -/
def count_inserts : List Op → Nat
  | [] => 0
  | .insert _ _ _ :: rest => count_inserts rest + 1
  | .remove _ :: rest => count_inserts rest

/-- The number of removes of a sequence of calls. -/
def count_removes : List Op → Nat
  | [] => 0
  | .insert _ _ _ :: rest => count_removes rest
  | .remove _ :: rest => count_removes rest + 1

/-- The calls respect their preconditions when started on live sequence `L`: each
insert is in front of a live node or the tail sentinel with a cell outside the
container, each remove is on a live node. -/
def valid_ops (q : pq) : List Nat → List Op → Prop
  | _, [] => True
  | L, .insert b e _ :: rest =>
    (b ∈ L ∨ b = q.tail) ∧ e ∉ q.head :: (L ++ [q.tail]) ∧
      valid_ops q (insert_before b e L) rest
  | L, .remove x :: rest => x ∈ L ∧ valid_ops q (L.erase x) rest

instance valid_ops_decidable (q : pq) : (L : List Nat) → (ops : List Op) →
    Decidable (valid_ops q L ops)
  | _, [] => isTrue trivial
  | L, .insert b e _ :: rest =>
    have := valid_ops_decidable q (insert_before b e L) rest
    (inferInstance : Decidable ((b ∈ L ∨ b = q.tail) ∧ e ∉ q.head :: (L ++ [q.tail]) ∧
      valid_ops q (insert_before b e L) rest))
  | L, .remove x :: rest =>
    have := valid_ops_decidable q (L.erase x) rest
    (inferInstance : Decidable (x ∈ L ∧ valid_ops q (L.erase x) rest))

/-- Three live nodes in cells `2, 3, 4` with priorities `5, 3, 4`, ranks `1, 2, 3` and every
cached link in place: a max-heap. -/
def mem_534 : Mem := fun a =>
  match a with
  | 0 => cell none (some 2) none none none 0 0
  | 1 => cell (some 4) none none none none 0 0
  | 2 => cell (some 0) (some 3) none (some 3) (some 4) 1 5
  | 3 => cell (some 2) (some 4) (some 2) none none 2 3
  | 4 => cell (some 3) (some 1) (some 2) none none 3 4
  | _ => cell none none none none none 0 0

/-- Two cells agree on rank, priority and the three cached heap links. -/
def same_heap_fields (c c' : pq_elem) : Prop :=
  c'.id = c.id ∧ c'.priority = c.priority ∧ c'.parent = c.parent ∧ c'.left = c.left ∧
    c'.right = c.right

instance same_heap_fields_decidable (c c' : pq_elem) : Decidable (same_heap_fields c c') := by
  unfold same_heap_fields; infer_instance

/-- The cells that the variable `elem` of `parent` holds during the loop, in order. -/
def parent_loop_trace (m : Mem) : Nat → Nat → List Nat
  | 0, e => [e]
  | k + 1, e =>
    e :: (match (m e).prev with
      | none => []
      | some p => if (m p).prev = none then [] else parent_loop_trace m k p)

/-- The cells that the variable `elem` of `parent` holds during a call. -/
def parent_trace (m : Mem) (elem : Ptr) : List Nat :=
  match elem with
  | none => []
  | some e => parent_loop_trace m (Int.toNat ((m e).id - Int.tdiv (m e).id 2)) e

/-- Position `j` lies in the subtree rooted at position `k` of the implicit binary tree
(children of `k` are `2 * k` and `2 * k + 1`): halving `j` some number of times gives `k`. -/
def in_subtree (k j : Nat) : Prop := ∃ d, d ≤ j ∧ j / 2 ^ d = k

instance in_subtree_decidable (k j : Nat) : Decidable (in_subtree k j) := by
  unfold in_subtree; infer_instance

/-- The node at position `j`, if any, dominates the nodes at positions `2 * j` and
`2 * j + 1`. -/
def heap_at (m : Mem) (L : List Nat) (j : Nat) : Prop :=
  match node_at L j with
  | none => True
  | some e =>
    dominates m (m e).priority (node_at L (2 * j)) ∧
      dominates m (m e).priority (node_at L (2 * j + 1))

instance heap_at_decidable (m : Mem) (L : List Nat) (j : Nat) : Decidable (heap_at m L j) := by
  unfold heap_at; cases node_at L j <;> infer_instance

/-- The subtree rooted at position `k` satisfies the max-heap property. -/
def subtree_heap (m : Mem) (L : List Nat) (k : Nat) : Prop :=
  ∀ j, j < L.length + 1 → in_subtree k j → heap_at m L j

instance subtree_heap_decidable (m : Mem) (L : List Nat) (k : Nat) :
    Decidable (subtree_heap m L k) := by
  unfold subtree_heap; infer_instance

/-- Two cells agree on everything but the priority. -/
def same_but_priority (c c' : pq_elem) : Prop :=
  c'.prev = c.prev ∧ c'.next = c.next ∧ c'.parent = c.parent ∧ c'.left = c.left ∧
    c'.right = c.right ∧ c'.id = c.id

instance same_but_priority_decidable (c c' : pq_elem) :
    Decidable (same_but_priority c c') := by
  unfold same_but_priority; infer_instance

/-- Four live nodes in cells `2, 3, 4, 5` with priorities `1, 9, 8, 7`, ranks and cached
links in place: only the front violates the max-heap property. -/
def mem_1987 : Mem := fun a =>
  match a with
  | 0 => cell none (some 2) none none none 0 0
  | 1 => cell (some 5) none none none none 0 0
  | 2 => cell (some 0) (some 3) none (some 3) (some 4) 1 1
  | 3 => cell (some 2) (some 4) (some 2) (some 5) none 2 9
  | 4 => cell (some 3) (some 5) (some 2) none none 3 8
  | 5 => cell (some 4) (some 1) (some 3) none none 4 7
  | _ => cell none none none none none 0 0

/-- The memory after `exchange (e, c)`. -/
def exchanged (m : Mem) (e c : Nat) : Mem :=
  set_priority (set_priority m e (m c).priority) c (m e).priority

/-- The pointer `p` is `NULL` or leads to a live node behind index `i`. -/
def later (L : List Nat) (i : Nat) (p : Ptr) : Prop :=
  match p with
  | none => True
  | some c => ∃ j, j < L.length ∧ i < j ∧ L[j]? = some c

instance later_decidable (L : List Nat) (i : Nat) (p : Ptr) : Decidable (later L i p) := by
  unfold later; cases p <;> infer_instance

/-- The cached children of every live node are live nodes strictly later in the sequence,
or `NULL`. -/
def later_inv (m : Mem) (L : List Nat) : Prop :=
  ∀ i (h : i < L.length), later L i (m L[i]).left ∧ later L i (m L[i]).right

instance later_inv_decidable (m : Mem) (L : List Nat) : Decidable (later_inv m L) := by
  unfold later_inv; infer_instance

@[simp] theorem set_prev_prev (m : Mem) (a : Nat) (v : Ptr) (x : Nat) :
    (set_prev m a v x).prev = if x = a then v else (m x).prev := by
  unfold set_prev; split <;> simp_all

@[simp] theorem set_prev_next (m : Mem) (a : Nat) (v : Ptr) (x : Nat) :
    (set_prev m a v x).next = (m x).next := by
  unfold set_prev; split <;> simp_all

@[simp] theorem set_prev_parent (m : Mem) (a : Nat) (v : Ptr) (x : Nat) :
    (set_prev m a v x).parent = (m x).parent := by
  unfold set_prev; split <;> simp_all

@[simp] theorem set_prev_left (m : Mem) (a : Nat) (v : Ptr) (x : Nat) :
    (set_prev m a v x).left = (m x).left := by
  unfold set_prev; split <;> simp_all

@[simp] theorem set_prev_right (m : Mem) (a : Nat) (v : Ptr) (x : Nat) :
    (set_prev m a v x).right = (m x).right := by
  unfold set_prev; split <;> simp_all

@[simp] theorem set_prev_id (m : Mem) (a : Nat) (v : Ptr) (x : Nat) :
    (set_prev m a v x).id = (m x).id := by
  unfold set_prev; split <;> simp_all

@[simp] theorem set_prev_priority (m : Mem) (a : Nat) (v : Ptr) (x : Nat) :
    (set_prev m a v x).priority = (m x).priority := by
  unfold set_prev; split <;> simp_all

@[simp] theorem set_next_prev (m : Mem) (a : Nat) (v : Ptr) (x : Nat) :
    (set_next m a v x).prev = (m x).prev := by
  unfold set_next; split <;> simp_all

@[simp] theorem set_next_next (m : Mem) (a : Nat) (v : Ptr) (x : Nat) :
    (set_next m a v x).next = if x = a then v else (m x).next := by
  unfold set_next; split <;> simp_all

@[simp] theorem set_next_parent (m : Mem) (a : Nat) (v : Ptr) (x : Nat) :
    (set_next m a v x).parent = (m x).parent := by
  unfold set_next; split <;> simp_all

@[simp] theorem set_next_left (m : Mem) (a : Nat) (v : Ptr) (x : Nat) :
    (set_next m a v x).left = (m x).left := by
  unfold set_next; split <;> simp_all

@[simp] theorem set_next_right (m : Mem) (a : Nat) (v : Ptr) (x : Nat) :
    (set_next m a v x).right = (m x).right := by
  unfold set_next; split <;> simp_all

@[simp] theorem set_next_id (m : Mem) (a : Nat) (v : Ptr) (x : Nat) :
    (set_next m a v x).id = (m x).id := by
  unfold set_next; split <;> simp_all

@[simp] theorem set_next_priority (m : Mem) (a : Nat) (v : Ptr) (x : Nat) :
    (set_next m a v x).priority = (m x).priority := by
  unfold set_next; split <;> simp_all

@[simp] theorem set_parent_prev (m : Mem) (a : Nat) (v : Ptr) (x : Nat) :
    (set_parent m a v x).prev = (m x).prev := by
  unfold set_parent; split <;> simp_all

@[simp] theorem set_parent_next (m : Mem) (a : Nat) (v : Ptr) (x : Nat) :
    (set_parent m a v x).next = (m x).next := by
  unfold set_parent; split <;> simp_all

@[simp] theorem set_parent_parent (m : Mem) (a : Nat) (v : Ptr) (x : Nat) :
    (set_parent m a v x).parent = if x = a then v else (m x).parent := by
  unfold set_parent; split <;> simp_all

@[simp] theorem set_parent_left (m : Mem) (a : Nat) (v : Ptr) (x : Nat) :
    (set_parent m a v x).left = (m x).left := by
  unfold set_parent; split <;> simp_all

@[simp] theorem set_parent_right (m : Mem) (a : Nat) (v : Ptr) (x : Nat) :
    (set_parent m a v x).right = (m x).right := by
  unfold set_parent; split <;> simp_all

@[simp] theorem set_parent_id (m : Mem) (a : Nat) (v : Ptr) (x : Nat) :
    (set_parent m a v x).id = (m x).id := by
  unfold set_parent; split <;> simp_all

@[simp] theorem set_parent_priority (m : Mem) (a : Nat) (v : Ptr) (x : Nat) :
    (set_parent m a v x).priority = (m x).priority := by
  unfold set_parent; split <;> simp_all

@[simp] theorem set_left_prev (m : Mem) (a : Nat) (v : Ptr) (x : Nat) :
    (set_left m a v x).prev = (m x).prev := by
  unfold set_left; split <;> simp_all

@[simp] theorem set_left_next (m : Mem) (a : Nat) (v : Ptr) (x : Nat) :
    (set_left m a v x).next = (m x).next := by
  unfold set_left; split <;> simp_all

@[simp] theorem set_left_parent (m : Mem) (a : Nat) (v : Ptr) (x : Nat) :
    (set_left m a v x).parent = (m x).parent := by
  unfold set_left; split <;> simp_all

@[simp] theorem set_left_left (m : Mem) (a : Nat) (v : Ptr) (x : Nat) :
    (set_left m a v x).left = if x = a then v else (m x).left := by
  unfold set_left; split <;> simp_all

@[simp] theorem set_left_right (m : Mem) (a : Nat) (v : Ptr) (x : Nat) :
    (set_left m a v x).right = (m x).right := by
  unfold set_left; split <;> simp_all

@[simp] theorem set_left_id (m : Mem) (a : Nat) (v : Ptr) (x : Nat) :
    (set_left m a v x).id = (m x).id := by
  unfold set_left; split <;> simp_all

@[simp] theorem set_left_priority (m : Mem) (a : Nat) (v : Ptr) (x : Nat) :
    (set_left m a v x).priority = (m x).priority := by
  unfold set_left; split <;> simp_all

@[simp] theorem set_right_prev (m : Mem) (a : Nat) (v : Ptr) (x : Nat) :
    (set_right m a v x).prev = (m x).prev := by
  unfold set_right; split <;> simp_all

@[simp] theorem set_right_next (m : Mem) (a : Nat) (v : Ptr) (x : Nat) :
    (set_right m a v x).next = (m x).next := by
  unfold set_right; split <;> simp_all

@[simp] theorem set_right_parent (m : Mem) (a : Nat) (v : Ptr) (x : Nat) :
    (set_right m a v x).parent = (m x).parent := by
  unfold set_right; split <;> simp_all

@[simp] theorem set_right_left (m : Mem) (a : Nat) (v : Ptr) (x : Nat) :
    (set_right m a v x).left = (m x).left := by
  unfold set_right; split <;> simp_all

@[simp] theorem set_right_right (m : Mem) (a : Nat) (v : Ptr) (x : Nat) :
    (set_right m a v x).right = if x = a then v else (m x).right := by
  unfold set_right; split <;> simp_all

@[simp] theorem set_right_id (m : Mem) (a : Nat) (v : Ptr) (x : Nat) :
    (set_right m a v x).id = (m x).id := by
  unfold set_right; split <;> simp_all

@[simp] theorem set_right_priority (m : Mem) (a : Nat) (v : Ptr) (x : Nat) :
    (set_right m a v x).priority = (m x).priority := by
  unfold set_right; split <;> simp_all

@[simp] theorem set_id_prev (m : Mem) (a : Nat) (v : Int) (x : Nat) :
    (set_id m a v x).prev = (m x).prev := by
  unfold set_id; split <;> simp_all

@[simp] theorem set_id_next (m : Mem) (a : Nat) (v : Int) (x : Nat) :
    (set_id m a v x).next = (m x).next := by
  unfold set_id; split <;> simp_all

@[simp] theorem set_id_parent (m : Mem) (a : Nat) (v : Int) (x : Nat) :
    (set_id m a v x).parent = (m x).parent := by
  unfold set_id; split <;> simp_all

@[simp] theorem set_id_left (m : Mem) (a : Nat) (v : Int) (x : Nat) :
    (set_id m a v x).left = (m x).left := by
  unfold set_id; split <;> simp_all

@[simp] theorem set_id_right (m : Mem) (a : Nat) (v : Int) (x : Nat) :
    (set_id m a v x).right = (m x).right := by
  unfold set_id; split <;> simp_all

@[simp] theorem set_id_id (m : Mem) (a : Nat) (v : Int) (x : Nat) :
    (set_id m a v x).id = if x = a then v else (m x).id := by
  unfold set_id; split <;> simp_all

@[simp] theorem set_id_priority (m : Mem) (a : Nat) (v : Int) (x : Nat) :
    (set_id m a v x).priority = (m x).priority := by
  unfold set_id; split <;> simp_all

@[simp] theorem set_priority_prev (m : Mem) (a : Nat) (v : Int) (x : Nat) :
    (set_priority m a v x).prev = (m x).prev := by
  unfold set_priority; split <;> simp_all

@[simp] theorem set_priority_next (m : Mem) (a : Nat) (v : Int) (x : Nat) :
    (set_priority m a v x).next = (m x).next := by
  unfold set_priority; split <;> simp_all

@[simp] theorem set_priority_parent (m : Mem) (a : Nat) (v : Int) (x : Nat) :
    (set_priority m a v x).parent = (m x).parent := by
  unfold set_priority; split <;> simp_all

@[simp] theorem set_priority_left (m : Mem) (a : Nat) (v : Int) (x : Nat) :
    (set_priority m a v x).left = (m x).left := by
  unfold set_priority; split <;> simp_all

@[simp] theorem set_priority_right (m : Mem) (a : Nat) (v : Int) (x : Nat) :
    (set_priority m a v x).right = (m x).right := by
  unfold set_priority; split <;> simp_all

@[simp] theorem set_priority_id (m : Mem) (a : Nat) (v : Int) (x : Nat) :
    (set_priority m a v x).id = (m x).id := by
  unfold set_priority; split <;> simp_all

@[simp] theorem set_priority_priority (m : Mem) (a : Nat) (v : Int) (x : Nat) :
    (set_priority m a v x).priority = if x = a then v else (m x).priority := by
  unfold set_priority; split <;> simp_all

/-! ## The mutual recursion of `pq_front` and `pq_empty` -/

/-- With the assertion evaluated, `pq_front` is the source text: it asks `pq_empty`. -/
theorem pq_front_checked_step (fuel : Nat) (m : Mem) (q : pq) :
    pq_front true (fuel + 1) m q =
      (match pq_empty true fuel m q with
       | .ok true => .error .fault
       | .ok false => .ok (m q.head).next
       | .error err => .error err) := rfl

/-- With the assertion compiled out, `pq_front` reads `head.next`. -/
theorem pq_front_unchecked (fuel : Nat) (m : Mem) (q : pq) :
    pq_front false fuel m q = .ok (m q.head).next := by
  unfold pq_front; rfl

/-- With the assertion evaluated, `pq_front` never returns: no amount of fuel is enough. -/
theorem pq_front_checked_diverges (fuel : Nat) (m : Mem) (q : pq) :
    pq_front true fuel m q = .error .timeout := by
  induction fuel with
  | zero => unfold pq_front; rfl
  | succ n ih => unfold pq_front; simp [ih]

/-- With the assertion evaluated, `pq_empty` never returns. -/
theorem pq_empty_checked_diverges (fuel : Nat) (m : Mem) (q : pq) :
    pq_empty true fuel m q = .error .timeout := by
  simp [pq_empty, pq_front_checked_diverges]

/-- With the assertion evaluated, `pq_back` never returns. -/
theorem pq_back_checked_diverges (fuel : Nat) (m : Mem) (q : pq) :
    pq_back true fuel m q = .error .timeout := by
  simp [pq_back, pq_empty_checked_diverges]

/-- With the assertion compiled out, `pq_back` reads `tail.prev`. -/
theorem pq_back_unchecked (fuel : Nat) (m : Mem) (q : pq) :
    pq_back false fuel m q = .ok (m q.tail).prev := by
  simp [pq_back]

/-- With the assertion evaluated, `pq_push_back` never returns. -/
theorem pq_push_back_checked_diverges (fuel : Nat) (m : Mem) (q : pq) (elem : Ptr) (p : Int) :
    pq_push_back true fuel m q elem p = .error .timeout := by
  simp [pq_push_back, pq_back_checked_diverges, bind, Except.bind]

/-! ## Faults of the push wrappers -/

/-- After `pq_init` the head sentinel has no predecessor. -/
theorem pq_init_head_prev (m : Mem) (q : pq) : (pq_init m q q.head).prev = none := by
  simp [pq_init, pq.head, pq.tail]

/-- After `pq_init` the predecessor of the tail sentinel is the head sentinel. -/
theorem pq_init_tail_prev (m : Mem) (q : pq) : (pq_init m q q.tail).prev = some q.head := by
  simp [pq_init, pq.head, pq.tail]

/-- Inserting in front of a cell without predecessor is fatal: `before->prev->next = elem`
dereferences `NULL`. -/
theorem pq_insert_before_unlinked (m : Mem) (b : Nat) (elem : Ptr) (p : Int)
    (h : (m b).prev = none) : pq_insert m (some b) elem p = .error .fault := by
  cases elem with
  | none => rfl
  | some e => simp [pq_insert, deref, bind, Except.bind, h]

/-- On a freshly initialised container `pq_push_back` without the assertion is fatal:
`pq_back` hands the head sentinel to `pq_insert`. -/
theorem pq_push_back_init_faults (fuel : Nat) (m : Mem) (q : pq) (elem : Ptr) (p : Int) :
    pq_push_back false fuel (pq_init m q) q elem p = .error .fault := by
  simp only [pq_push_back, pq_back_unchecked, bind, Except.bind, pq_init_tail_prev]
  exact pq_insert_before_unlinked _ _ _ _ (pq_init_head_prev m q)

/-- On every well-formed container `pq_push_front` is fatal: `pq_head` hands the head
sentinel to `pq_insert`. -/
theorem pq_push_front_faults_of_WF (m : Mem) (q : pq) (L : List Nat) (elem : Ptr) (p : Int)
    (h : WF m q L) : pq_push_front m q elem p = .error .fault :=
  pq_insert_before_unlinked m q.head elem p h.2.1

/-- The freshly initialised container over zeroed memory is well-formed and empty. -/
theorem pq_init_blank_WF : WF (pq_init blank q0) q0 [] := by decide

/-! ## Chains of linked cells, and the container calls on well-formed containers -/

/-- Links only depend on the `next` fields of all cells but the last and on the `prev`
fields of all cells but the first. -/
theorem linked_frame {m m' : Mem} : ∀ (l : List Nat), linked m l →
    (∀ x ∈ l.dropLast, (m' x).next = (m x).next) →
    (∀ x ∈ l.tail, (m' x).prev = (m x).prev) → linked m' l
  | [], _, _, _ => trivial
  | [_], _, _, _ => trivial
  | a :: b :: r, h, hn, hp => by
    obtain ⟨⟨h1, h2⟩, h3⟩ := h
    refine ⟨⟨?_, ?_⟩, linked_frame (b :: r) h3 ?_ ?_⟩
    · rw [hn a (by simp), h1]
    · rw [hp b (by simp), h2]
    · intro x hx
      exact hn x (by simp [hx])
    · intro x hx
      exact hp x (by simp only [List.tail_cons] at hx ⊢; exact List.mem_cons_of_mem _ hx)

/-- A chain splits at any cell into the part up to it and the part from it. -/
theorem linked_append_cons (m : Mem) : ∀ (pre : List Nat) (a : Nat) (r : List Nat),
    linked m (pre ++ a :: r) ↔ linked m (pre ++ [a]) ∧ linked m (a :: r)
  | [], a, r => by simp [linked]
  | [x], a, r => by simp [linked]
  | x :: y :: t, a, r => by
    have ih := linked_append_cons m (y :: t) a r
    have e1 : linked m (x :: y :: t ++ a :: r) ↔
        ((m x).next = some y ∧ (m y).prev = some x) ∧ linked m (y :: t ++ a :: r) := Iff.rfl
    have e2 : linked m (x :: y :: t ++ [a]) ↔
        ((m x).next = some y ∧ (m y).prev = some x) ∧ linked m (y :: t ++ [a]) := Iff.rfl
    rw [e1, e2, ih]
    tauto

/-- Two neighbours anywhere in a chain point at each other. -/
theorem linked_link {m : Mem} {pre : List Nat} {a b : Nat} {post : List Nat}
    (h : linked m (pre ++ a :: b :: post)) : (m a).next = some b ∧ (m b).prev = some a :=
  ((linked_append_cons m pre a (b :: post)).1 h).2.1

/-- Removing a cell from the middle of a chain returns its successor and links its two
neighbours to each other. -/
theorem pq_remove_chain {m : Mem} {pre post : List Nat} {a x b : Nat}
    (hnd : (pre ++ a :: x :: b :: post).Nodup) (hl : linked m (pre ++ a :: x :: b :: post)) :
    pq_remove m (some x) = .ok (some b, unlinked m a b) ∧
      linked (unlinked m a b) (pre ++ a :: b :: post) := by
  have h1 := linked_link hl
  have hl2 : linked m ((pre ++ [a]) ++ x :: b :: post) := by simpa using hl
  have h2 := linked_link hl2
  have hsplit := (linked_append_cons m pre a (x :: b :: post)).1 hl
  have hpre : linked m (pre ++ [a]) := hsplit.1
  have hpost : linked m (b :: post) := hsplit.2.2.2
  simp only [List.nodup_append, List.nodup_cons, List.mem_cons, List.mem_append, not_or] at hnd
  obtain ⟨hndpre, ⟨⟨hax, hab, hapost⟩, ⟨hxb, hxpost⟩, hbpost, hndpost⟩, hdisj⟩ := hnd
  have hxa : x ≠ a := fun h => hax h.symm
  constructor
  · simp [pq_remove, deref, bind, Except.bind, h1, h2, hxa, unlinked, pure, Except.pure]
  · rw [linked_append_cons]
    refine ⟨linked_frame _ hpre ?_ ?_, ⟨?_, ?_⟩, linked_frame _ hpost ?_ ?_⟩
    · intro y hy
      have hy' : y ∈ pre := by simpa using hy
      have : y ≠ a := fun h => hdisj hy' (by simp [h])
      simp [unlinked, this]
    · intro y hy
      have hy' : y ∈ pre ++ [a] := List.mem_of_mem_tail hy
      have : y ≠ b := by
        rcases List.mem_append.1 hy' with h | h
        · exact fun hh => hdisj h (by simp [hh])
        · simp at h; rw [h]; exact hab
      simp [unlinked, this]
    · simp [unlinked, hab]
    · simp [unlinked]
    · intro y hy
      have hy' : y ∈ b :: post := List.mem_of_mem_dropLast hy
      have : y ≠ a := by
        rcases List.mem_cons.1 hy' with h | h
        · rw [h]; exact fun hh => hab hh.symm
        · exact fun hh => hapost (hh ▸ h)
      simp [unlinked, this]
    · intro y hy
      have hy' : y ∈ post := by simpa using hy
      have : y ≠ b := fun hh => hbpost (hh ▸ hy')
      simp [unlinked, this]

/-- A non-empty list ends in some cell. -/
theorem cons_eq_concat (h : Nat) (s : List Nat) :
    ∃ pre a, h :: s = pre ++ [a] ∧ (a = h ∨ a ∈ s) := by
  induction s generalizing h with
  | nil => exact ⟨[], h, rfl, Or.inl rfl⟩
  | cons y r ih =>
    obtain ⟨pre, a, he, ha⟩ := ih y
    refine ⟨h :: pre, a, by simp [he], Or.inr ?_⟩
    rcases ha with ha | ha
    · simp [ha]
    · simp [ha]

/-- A list followed by one more cell starts with some cell. -/
theorem concat_eq_cons (t : List Nat) (z : Nat) :
    ∃ b post, t ++ [z] = b :: post ∧ (b = z ∨ b ∈ t) ∧ (t ++ [z]).head? = some b := by
  cases t with
  | nil => exact ⟨z, [], rfl, Or.inl rfl, rfl⟩
  | cons y r => exact ⟨y, r ++ [z], rfl, Or.inr (by simp), rfl⟩

/-- The function `pq_remove` on a live node of a well-formed container: it returns the
cell that followed the node (the tail sentinel after the last node), the container stays
well-formed, its live sequence loses exactly that node, and no field other than one
`next` and one `prev` link of the two neighbours is written. -/
theorem pq_remove_WF {m : Mem} {q : pq} {s t : List Nat} {x : Nat}
    (hwf : WF m q (s ++ x :: t)) :
    ∃ a b, (a = q.head ∨ a ∈ s) ∧ (b = q.tail ∨ b ∈ t) ∧
      (t ++ [q.tail]).head? = some b ∧
      pq_remove m (some x) = .ok (some b, unlinked m a b) ∧ WF (unlinked m a b) q (s ++ t) := by
  obtain ⟨hnd, hhead, htail, hl⟩ := hwf
  obtain ⟨pre, a, hpre, ha⟩ := cons_eq_concat q.head s
  obtain ⟨b, post, hpost, hb, hhd⟩ := concat_eq_cons t q.tail
  have hc : q.head :: ((s ++ x :: t) ++ [q.tail]) = pre ++ a :: x :: b :: post := by
    have : q.head :: ((s ++ x :: t) ++ [q.tail]) = (q.head :: s) ++ x :: (t ++ [q.tail]) := by
      simp
    rw [this, hpre, hpost]; simp
  have hc' : q.head :: ((s ++ t) ++ [q.tail]) = pre ++ a :: b :: post := by
    have : q.head :: ((s ++ t) ++ [q.tail]) = (q.head :: s) ++ (t ++ [q.tail]) := by simp
    rw [this, hpre, hpost]; simp
  rw [hc] at hnd hl
  obtain ⟨hrem, hl'⟩ := pq_remove_chain hnd hl
  refine ⟨a, b, ha, hb, hhd, hrem, ?_, ?_, ?_, ?_⟩
  · rw [hc']
    simp only [List.nodup_append, List.nodup_cons, List.mem_cons, List.mem_append, not_or] at hnd ⊢
    obtain ⟨hndpre, ⟨⟨hax, hab, hapost⟩, ⟨hxb, hxpost⟩, hbpost, hndpost⟩, hdisj⟩ := hnd
    refine ⟨hndpre, ⟨⟨hab, hapost⟩, hbpost, hndpost⟩, ?_⟩
    intro y hy hz
    refine hdisj hy ?_
    simp only [List.mem_cons] at hz ⊢
    tauto
  · -- head.prev: the only prev written is that of `b`, which is not the head
    have hbh : q.head ≠ b := by
      intro h
      have hmem : b ∈ x :: b :: post := by simp
      have : q.head ∈ pre ++ [a] := by rw [← hpre]; simp
      have hnd' : (pre ++ a :: x :: b :: post).Nodup := hnd
      rw [show pre ++ a :: x :: b :: post = (pre ++ [a]) ++ x :: b :: post by simp] at hnd'
      exact (List.nodup_append.1 hnd').2.2 this (h ▸ hmem)
    simp [unlinked, hbh, hhead]
  · have hta : q.tail ≠ a := by
      intro h
      have hmem : q.tail ∈ b :: post := by rw [← hpost]; simp
      have hnd' : (pre ++ a :: x :: b :: post).Nodup := hnd
      rw [show pre ++ a :: x :: b :: post = (pre ++ [a]) ++ x :: b :: post by simp] at hnd'
      exact (List.nodup_append.1 hnd').2.2 (show a ∈ pre ++ [a] by simp) (by
        rw [← h]; exact List.mem_cons_of_mem _ hmem)
    simp [unlinked, hta, htail]
  · rw [hc']; exact hl'

/-- In a max-heap by position no node has a larger priority than the first one. -/
theorem heap_pos_inv_root_max {m : Mem} {f : Nat} {rest : List Nat}
    (hheap : heap_pos_inv m (f :: rest)) :
    ∀ k (h : k < (f :: rest).length), (m (f :: rest)[k]).priority ≤ (m f).priority := by
  generalize hL : f :: rest = L at hheap
  have h0 : ∀ (h : 0 < L.length), L[0] = f := by
    intro h; subst hL; rfl
  intro k
  induction k using Nat.strong_induction_on with
  | _ k ih =>
    intro h
    rcases Nat.eq_zero_or_pos k with hk | hk
    · subst hk; rw [h0 h]
    · have hj : (k - 1) / 2 < k := by omega
      have hjl : (k - 1) / 2 < L.length := by omega
      have hpar := ih ((k - 1) / 2) hj hjl
      have hdom := hheap ((k - 1) / 2) hjl
      refine le_trans ?_ hpar
      rcases Nat.even_or_odd (k - 1) with he | ho
      · -- k - 1 = 2 j, so k = 2 j + 1: the left child of j
        obtain ⟨r, hr⟩ := he
        have hk2 : 2 * ((k - 1) / 2 + 1) - 1 = k := by omega
        apply hdom.1 L[k]
        unfold node_at
        rw [if_neg (by omega), hk2]
        exact List.getElem?_eq_getElem h
      · obtain ⟨r, hr⟩ := ho
        have hk2 : 2 * ((k - 1) / 2 + 1) + 1 - 1 = k := by omega
        apply hdom.2 L[k]
        unfold node_at
        rw [if_neg (by omega), hk2]
        exact List.getElem?_eq_getElem h

/-- Without the assertion, `heap_extract_max` on a non-empty well-formed container that is
a max-heap by position returns the front node, no live node has a larger priority, and
afterwards the node is gone from the live sequence, which is otherwise unchanged. -/
theorem heap_extract_max_unchecked {m : Mem} {q : pq} {f : Nat} {rest : List Nat}
    (fuel : Nat) (hwf : WF m q (f :: rest)) (hheap : heap_pos_inv m (f :: rest)) :
    ∃ m', heap_extract_max false fuel m q = .ok (some f, m') ∧
      (∀ x ∈ f :: rest, (m x).priority ≤ (m f).priority) ∧ WF m' q rest ∧ f ∉ rest := by
  have hfront : (m q.head).next = some f := hwf.2.2.2.1.1
  have hnd := hwf.1
  obtain ⟨a, b, -, -, -, hrem, hwf'⟩ := pq_remove_WF (s := []) (by simpa using hwf)
  refine ⟨unlinked m a b, ?_, ?_, by simpa using hwf', ?_⟩
  · simp [heap_extract_max, pq_pop_front, pq_front_unchecked, hfront, hrem, bind, Except.bind,
      pure, Except.pure]
  · intro x hx
    obtain ⟨k, hk, rfl⟩ := List.getElem_of_mem hx
    exact heap_pos_inv_root_max hheap k hk
  · simp only [List.cons_append, List.nodup_cons, List.mem_cons, List.mem_append, not_or] at hnd
    exact fun h => hnd.2.1.1 h

/-- Well-formedness only looks at the `prev` and `next` fields. -/
theorem WF_of_links_eq {m m' : Mem} {q : pq} {L : List Nat}
    (h : ∀ x, (m' x).next = (m x).next ∧ (m' x).prev = (m x).prev) (hwf : WF m q L) :
    WF m' q L :=
  ⟨hwf.1, by rw [(h _).2]; exact hwf.2.1, by rw [(h _).1]; exact hwf.2.2.1,
    linked_frame _ hwf.2.2.2 (fun x _ => (h x).1) (fun x _ => (h x).2)⟩

/-- In a well-formed container the `prev` link of a live node leads to the head sentinel
or to a live node. -/
theorem WF_prev_of_mem {m : Mem} {q : pq} {L : List Nat} {e : Nat}
    (hwf : WF m q L) (he : e ∈ L) : ∃ a, (m e).prev = some a ∧ (a = q.head ∨ a ∈ L) := by
  obtain ⟨s, t, rfl⟩ := List.append_of_mem he
  obtain ⟨pre, a, hpre, ha⟩ := cons_eq_concat q.head s
  have hl := hwf.2.2.2
  have hc : q.head :: ((s ++ e :: t) ++ [q.tail]) = pre ++ a :: e :: (t ++ [q.tail]) := by
    have : q.head :: ((s ++ e :: t) ++ [q.tail]) = (q.head :: s) ++ e :: (t ++ [q.tail]) := by
      simp
    rw [this, hpre]; simp
  rw [hc] at hl
  refine ⟨a, (linked_link hl).2, ?_⟩
  rcases ha with ha | ha
  · exact Or.inl ha
  · exact Or.inr (by simp [ha])

/-- In a well-formed container the `next` link of a live node leads to the tail sentinel
or to a live node. -/
theorem WF_next_of_mem {m : Mem} {q : pq} {L : List Nat} {e : Nat}
    (hwf : WF m q L) (he : e ∈ L) : ∃ b, (m e).next = some b ∧ (b = q.tail ∨ b ∈ L) := by
  obtain ⟨s, t, rfl⟩ := List.append_of_mem he
  obtain ⟨b, post, hpost, hb, -⟩ := concat_eq_cons t q.tail
  have hl := hwf.2.2.2
  have hc : q.head :: ((s ++ e :: t) ++ [q.tail]) = (q.head :: s) ++ e :: b :: post := by
    have : q.head :: ((s ++ e :: t) ++ [q.tail]) = (q.head :: s) ++ e :: (t ++ [q.tail]) := by
      simp
    rw [this, hpost]
  rw [hc] at hl
  refine ⟨b, (linked_link hl).1, ?_⟩
  rcases hb with hb | hb
  · exact Or.inl hb
  · exact Or.inr (by simp [hb])

/-- From a live node of a well-formed container the loop of `parent` returns without
fault, with `NULL` or a live node. -/
theorem parent_loop_ok {m : Mem} {q : pq} {L : List Nat} (hwf : WF m q L) :
    ∀ (k e : Nat), e ∈ L → ∃ r, parent_loop m k e = .ok r ∧ ∀ c, r = some c → c ∈ L
  | 0, e, he => ⟨some e, rfl, fun c hc => by cases hc; exact he⟩
  | k + 1, e, he => by
    obtain ⟨a, hprev, ha⟩ := WF_prev_of_mem hwf he
    by_cases hnull : (m a).prev = none
    · exact ⟨none, by simp [parent_loop, hprev, deref, hnull, bind, Except.bind],
        fun c hc => by cases hc⟩
    · have haL : a ∈ L := by
        rcases ha with ha | ha
        · exact absurd (ha ▸ hwf.2.1) hnull
        · exact ha
      obtain ⟨r, hr, hrL⟩ := parent_loop_ok hwf k a haL
      exact ⟨r, by simp [parent_loop, hprev, deref, hnull, bind, Except.bind, hr], hrL⟩

/-- From a live node of a well-formed container the loop of `left` and `right` returns
without fault, with `NULL` or a live node. -/
theorem child_loop_ok {m : Mem} {q : pq} {L : List Nat} (hwf : WF m q L) :
    ∀ (k e : Nat), e ∈ L → ∃ r, child_loop m k e = .ok r ∧ ∀ c, r = some c → c ∈ L
  | 0, e, he => ⟨some e, rfl, fun c hc => by cases hc; exact he⟩
  | k + 1, e, he => by
    obtain ⟨b, hnext, hb⟩ := WF_next_of_mem hwf he
    by_cases hnull : (m b).next = none
    · exact ⟨none, by simp [child_loop, hnext, deref, hnull, bind, Except.bind],
        fun c hc => by cases hc⟩
    · have hbL : b ∈ L := by
        rcases hb with hb | hb
        · exact absurd (hb ▸ hwf.2.2.1) hnull
        · exact hb
      obtain ⟨r, hr, hrL⟩ := child_loop_ok hwf k b hbL
      exact ⟨r, by simp [child_loop, hnext, deref, hnull, bind, Except.bind, hr], hrL⟩

/-- On a live node of a well-formed container `parent` returns, whatever the node's `id`. -/
theorem parent_ok {m : Mem} {q : pq} {L : List Nat} (hwf : WF m q L) {e : Nat} (he : e ∈ L) :
    ∃ r, parent m (some e) = .ok r ∧ ∀ c, r = some c → c ∈ L := by
  obtain ⟨r, hr, hrL⟩ := parent_loop_ok hwf (Int.toNat ((m e).id - Int.tdiv (m e).id 2)) e he
  exact ⟨r, by simp [parent, deref, bind, Except.bind, hr], hrL⟩

/-- On a live node of a well-formed container `left` returns, whatever the node's `id`. -/
theorem left_ok {m : Mem} {q : pq} {L : List Nat} (hwf : WF m q L) {e : Nat} (he : e ∈ L) :
    ∃ r, left m (some e) = .ok r ∧ ∀ c, r = some c → c ∈ L := by
  obtain ⟨r, hr, hrL⟩ := child_loop_ok hwf (Int.toNat (wrap_int ((m e).id * 2) - (m e).id)) e he
  exact ⟨r, by simp [left, deref, bind, Except.bind, hr], hrL⟩

/-- On a live node of a well-formed container `right` returns, whatever the node's `id`. -/
theorem right_ok {m : Mem} {q : pq} {L : List Nat} (hwf : WF m q L) {e : Nat} (he : e ∈ L) :
    ∃ r, right m (some e) = .ok r ∧ ∀ c, r = some c → c ∈ L := by
  obtain ⟨r, hr, hrL⟩ := child_loop_ok hwf (Int.toNat (wrap_int ((m e).id * 2 + 1) - (m e).id)) e he
  exact ⟨r, by simp [right, deref, bind, Except.bind, hr], hrL⟩

/-- The last cell of a list lies behind every split point. -/
theorem last_mem_of_eq {z b : Nat} {t : List Nat} :
    ∀ {L s : List Nat}, L ++ [z] = s ++ b :: t → z ∈ b :: t
  | L, [], h => by
    have : z ∈ L ++ [z] := by simp
    rw [h] at this
    simpa using this
  | [], y :: s, h => by
    simp at h
  | x :: L, y :: s, h => by
    have h' : L ++ [z] = s ++ b :: t := by
      simp only [List.cons_append, List.cons.injEq] at h
      exact h.2
    exact last_mem_of_eq h'

/-- The four link writes put `e` between `a` and `b` and leave the rest of the chain
linked. -/
theorem spliced_linked {m : Mem} {pre post : List Nat} {a b e : Nat}
    (hnd : (pre ++ a :: b :: post).Nodup) (he : e ∉ pre ++ a :: b :: post)
    (hl : linked m (pre ++ a :: b :: post)) :
    linked (spliced m a b e) (pre ++ a :: e :: b :: post) := by
  have hsplit := (linked_append_cons m pre a (b :: post)).1 hl
  have hpre : linked m (pre ++ [a]) := hsplit.1
  have hpost : linked m (b :: post) := hsplit.2.2
  simp only [List.nodup_append, List.nodup_cons, List.mem_cons, List.mem_append, not_or] at hnd he
  obtain ⟨hndpre, ⟨⟨hab, hapost⟩, hbpost, hndpost⟩, hdisj⟩ := hnd
  obtain ⟨hepre, hea, heb, hepost⟩ := he
  rw [linked_append_cons]
  refine ⟨linked_frame _ hpre ?_ ?_, ⟨?_, ?_⟩, ⟨?_, ?_⟩, linked_frame _ hpost ?_ ?_⟩
  · intro y hy
    have hy' : y ∈ pre := by simpa using hy
    have h1 : y ≠ a := fun h => hdisj hy' (by simp [h])
    have h2 : y ≠ e := fun h => hepre (h ▸ hy')
    simp [spliced, h1, h2]
  · intro y hy
    have hy' : y ∈ pre ++ [a] := List.mem_of_mem_tail hy
    have h1 : y ≠ b := by
      rcases List.mem_append.1 hy' with h | h
      · exact fun hh => hdisj h (by simp [hh])
      · simp at h; rw [h]; exact hab
    have h2 : y ≠ e := by
      rcases List.mem_append.1 hy' with h | h
      · exact fun hh => hepre (hh ▸ h)
      · simp at h; rw [h]; exact fun hh => hea hh.symm
    simp [spliced, h1, h2]
  · simp [spliced]
  · simp [spliced, heb]
  · simp [spliced, hea]
  · simp [spliced]
  · intro y hy
    have hy' : y ∈ b :: post := List.mem_of_mem_dropLast hy
    have h1 : y ≠ a := by
      rcases List.mem_cons.1 hy' with h | h
      · rw [h]; exact fun hh => hab hh.symm
      · exact fun hh => hapost (hh ▸ h)
    have h2 : y ≠ e := by
      rcases List.mem_cons.1 hy' with h | h
      · rw [h]; exact fun hh => heb hh.symm
      · exact fun hh => hepost (hh ▸ h)
    simp [spliced, h1, h2]
  · intro y hy
    have hy' : y ∈ post := by simpa using hy
    have h1 : y ≠ b := fun hh => hbpost (hh ▸ hy')
    have h2 : y ≠ e := fun hh => hepost (hh ▸ hy')
    simp [spliced, h1, h2]

/-- The function `pq_insert` on a well-formed container, with `before` a live node or the
tail sentinel and `elem` a cell outside the container: the call returns, the container is
well-formed with `elem` right in front of `before`, the new node has `id = before.id + 1`
(wrapped to `int`)
and the given priority, and in every other cell only `prev` or `next` may have changed. -/
theorem pq_insert_core {m : Mem} {q : pq} {L L' s t : List Nat} {b e : Nat} (p : Int)
    (hwf : WF m q L) (hsplit : L ++ [q.tail] = s ++ b :: t)
    (hL' : L' ++ [q.tail] = s ++ e :: b :: t) (heL' : e ∈ L')
    (he : e ∉ q.head :: (L ++ [q.tail])) :
    ∃ m', pq_insert m (some b) (some e) p = .ok m' ∧ WF m' q L' ∧
      (m' e).id = wrap_int ((m b).id + 1) ∧ (m' e).priority = p ∧
      ∀ x, x ≠ e → (m' x).id = (m x).id ∧ (m' x).priority = (m x).priority ∧
        (m' x).parent = (m x).parent ∧ (m' x).left = (m x).left ∧
        (m' x).right = (m x).right := by
  obtain ⟨hnd, hhead, htail, hl⟩ := hwf
  obtain ⟨pre, a, hpre, ha⟩ := cons_eq_concat q.head s
  have hc : q.head :: (L ++ [q.tail]) = pre ++ a :: b :: t := by
    rw [hsplit, ← List.cons_append, hpre]; simp
  have hc' : q.head :: (L' ++ [q.tail]) = pre ++ a :: e :: b :: t := by
    rw [hL', ← List.cons_append, hpre]; simp
  rw [hc] at hnd hl he
  have hbprev : (m b).prev = some a := (linked_link hl).2
  have hmem : ∀ y, y ∈ pre ++ a :: b :: t → y ≠ e := fun y hy h => he (h ▸ hy)
  have hbe : b ≠ e := hmem b (by simp)
  have hae : a ≠ e := hmem a (by simp)
  have hhe : q.head ≠ e := hmem _ (by rw [← hc]; simp)
  have hte : q.tail ≠ e := hmem _ (by rw [← hc]; simp)
  have hhb : q.head ≠ b := by
    intro h
    have h1 : q.head ∈ pre ++ [a] := by rw [← hpre]; simp
    have hnd' : ((pre ++ [a]) ++ b :: t).Nodup := by simpa using hnd
    exact (List.nodup_append.1 hnd').2.2 h1 (by simp [h])
  have htbt : q.tail ∈ b :: t := last_mem_of_eq hsplit
  have hnd' : ((pre ++ [a]) ++ b :: t).Nodup := by simpa using hnd
  have hta : q.tail ≠ a := fun h =>
    (List.nodup_append.1 hnd').2.2 (show a ∈ pre ++ [a] by simp) (h ▸ htbt)
  have hwf4 : WF (spliced m a b e) q L' := by
    refine ⟨?_, ?_, ?_, ?_⟩
    · rw [hc']
      simp only [List.nodup_append, List.nodup_cons, List.mem_cons, List.mem_append, not_or,
        List.Disjoint] at hnd he ⊢
      obtain ⟨hndpre, ⟨⟨hab, hapost⟩, hbpost, hndpost⟩, hdisj⟩ := hnd
      obtain ⟨hepre, hea, heb, hepost⟩ := he
      refine ⟨hndpre, ⟨⟨fun h => hea h.symm, hab, hapost⟩, ⟨heb, hepost⟩, hbpost, hndpost⟩, ?_⟩
      intro y hy hz
      rcases hz with h | h | h
      · exact hdisj hy (Or.inl h)
      · exact hepre (h ▸ hy)
      · exact hdisj hy (Or.inr h)
    · simp [spliced, hhe, hhb, hhead]
    · simp [spliced, hta, hte, htail]
    · rw [hc']; exact spliced_linked hnd he hl
  obtain ⟨P, hP, -⟩ := parent_ok hwf4 heL'
  have hwf5 : WF (set_parent (spliced m a b e) e P) q L' :=
    WF_of_links_eq (fun x => by simp) hwf4
  obtain ⟨Lc, hLc, -⟩ := left_ok hwf5 heL'
  have hwf6 : WF (set_left (set_parent (spliced m a b e) e P) e Lc) q L' :=
    WF_of_links_eq (fun x => by simp) hwf5
  obtain ⟨R, hR, -⟩ := right_ok hwf6 heL'
  refine ⟨set_priority (set_id (set_right (set_left (set_parent (spliced m a b e) e P) e Lc)
    e R) e (wrap_int ((m b).id + 1))) e p, ?_, WF_of_links_eq (fun x => by simp) hwf6, by simp, by simp,
    ?_⟩
  · simp only [spliced] at hP hLc hR
    simp [pq_insert, deref, bind, Except.bind, pure, Except.pure, hbprev, hbe, hP, hLc, hR,
      spliced]
  · intro x hx
    simp [spliced, hx]

/-- Inserting in front of a cell that is not in the list appends. -/
theorem insert_before_of_not_mem {b e : Nat} : ∀ {L : List Nat}, b ∉ L →
    insert_before b e L = L ++ [e]
  | [], _ => rfl
  | x :: r, h => by
    have hx : x ≠ b := fun hh => h (by simp [hh])
    have hr : b ∉ r := fun hh => h (by simp [hh])
    simp [insert_before, hx, insert_before_of_not_mem hr]

/-- Inserting in front of the first occurrence of `b`. -/
theorem insert_before_of_split {b e : Nat} {t : List Nat} : ∀ {s : List Nat}, b ∉ s →
    insert_before b e (s ++ b :: t) = s ++ e :: b :: t
  | [], _ => by simp [insert_before]
  | x :: r, h => by
    have hx : x ≠ b := fun hh => h (by simp [hh])
    have hr : b ∉ r := fun hh => h (by simp [hh])
    simp [insert_before, hx, insert_before_of_split hr]

/-- Inserting makes the list one longer. -/
theorem length_insert_before (b e : Nat) : ∀ (L : List Nat),
    (insert_before b e L).length = L.length + 1
  | [] => rfl
  | x :: r => by
    by_cases hx : x = b
    · simp [insert_before, hx]
    · simp [insert_before, hx, length_insert_before b e r]

/-- In a well-formed container the tail sentinel is not a live node. -/
theorem WF_tail_not_mem {m : Mem} {q : pq} {L : List Nat} (hwf : WF m q L) : q.tail ∉ L := by
  have hnd := hwf.1
  simp only [List.nodup_cons, List.nodup_append, List.mem_append] at hnd
  exact fun h => hnd.2.2.2 h (by simp)

/-- The function `pq_insert` on a well-formed container with live sequence `L`, `before`
a live node or the tail sentinel, `elem` a cell outside the container: the call returns
and the container is well-formed with live sequence `insert_before before elem L`. -/
theorem pq_insert_WF {m : Mem} {q : pq} {L : List Nat} {b e : Nat} (p : Int)
    (hwf : WF m q L) (hb : b ∈ L ∨ b = q.tail) (he : e ∉ q.head :: (L ++ [q.tail])) :
    ∃ m', pq_insert m (some b) (some e) p = .ok m' ∧ WF m' q (insert_before b e L) ∧
      (m' e).id = wrap_int ((m b).id + 1) ∧ (m' e).priority = p ∧
      ∀ x, x ≠ e → (m' x).id = (m x).id ∧ (m' x).priority = (m x).priority ∧
        (m' x).parent = (m x).parent ∧ (m' x).left = (m x).left ∧
        (m' x).right = (m x).right := by
  by_cases hbL : b ∈ L
  · obtain ⟨s, t, hst, hbs⟩ : ∃ s t, L = s ++ b :: t ∧ b ∉ s := by
      obtain ⟨s, t, hst⟩ := List.append_of_mem hbL
      refine ⟨s, t, hst, fun hbs => ?_⟩
      have hnd := hwf.1
      rw [hst] at hnd
      simp only [List.nodup_cons, List.nodup_append, List.mem_append, List.append_assoc] at hnd
      exact hnd.2.2.2 hbs (by simp)
    rw [hst, insert_before_of_split hbs]
    rw [hst] at hwf he
    exact pq_insert_core (s := s) (t := t ++ [q.tail]) p hwf (by simp) (by simp) (by simp) he
  · have hbt : b = q.tail := hb.resolve_left hbL
    rw [insert_before_of_not_mem hbL, hbt]
    exact pq_insert_core (s := L) (t := []) p hwf rfl (by simp) (by simp) he

/-- Counting along a linked chain up to the tail sentinel. -/
theorem pq_size_loop_count {m : Mem} {q : pq} : ∀ (l : List Nat) (cnt fuel : Nat),
    linked m (l ++ [q.tail]) → q.tail ∉ l → l.length < fuel →
    pq_size_loop m q fuel (l ++ [q.tail]).head? cnt = .ok (cnt + l.length)
  | [], cnt, fuel + 1, _, _, _ => by simp [pq_size_loop, pq_tail]
  | x :: r, cnt, fuel + 1, hl, hnt, hf => by
    have hx : x ≠ q.tail := fun hh => hnt (by simp [hh])
    have hr : q.tail ∉ r := fun hh => hnt (by simp [hh])
    obtain ⟨y, post, hpost, -, hhd⟩ := concat_eq_cons r q.tail
    have hl' : linked m (x :: y :: post) := by rw [← hpost]; exact hl
    have hnext : (m x).next = (r ++ [q.tail]).head? := by rw [hhd]; exact hl'.1.1
    have hlr : linked m (r ++ [q.tail]) := by rw [hpost]; exact hl'.2
    have ih := pq_size_loop_count r (cnt + 1) fuel hlr hr (by simpa using hf)
    simp only [List.cons_append, List.head?_cons, pq_size_loop, pq_tail, Option.some.injEq,
      hx, if_false, deref, bind, Except.bind, hnext, ih]
    simp; omega

/-- Without the assertion `pq_size` returns the number of live nodes of a well-formed
container, zero included, as soon as the fuel exceeds that number. -/
theorem pq_size_unchecked {m : Mem} {q : pq} {L : List Nat} (hwf : WF m q L) (fuel : Nat)
    (hf : L.length < fuel) : pq_size false fuel m q = .ok L.length := by
  obtain ⟨y, post, hpost, -, hhd⟩ := concat_eq_cons L q.tail
  have hl := hwf.2.2.2
  have hfront : (m q.head).next = (L ++ [q.tail]).head? := by
    rw [hhd]; rw [hpost] at hl; exact hl.1.1
  have hl' : linked m (L ++ [q.tail]) := by
    rw [hpost] at hl ⊢; exact hl.2
  have hcount := pq_size_loop_count L 0 fuel hl' (WF_tail_not_mem hwf) hf
  simp only [pq_size, pq_front_unchecked, bind, Except.bind, hfront, hcount, Nat.zero_add]

/-- The function `pq_init` yields a well-formed container without live nodes. -/
theorem pq_init_WF (m : Mem) (q : pq) : WF (pq_init m q) q [] := by
  refine ⟨by simp [pq.head, pq.tail], by simp [pq_init, pq.head, pq.tail],
    by simp [pq_init, pq.head, pq.tail], ?_⟩
  simp [linked, pq_init, pq.head, pq.tail]

/-- Valid calls on a well-formed container all return and leave a well-formed container
whose number of live nodes is the old number plus the inserts minus the removes. -/
theorem run_ops_WF {q : pq} : ∀ (ops : List Op) (m : Mem) (L : List Nat),
    WF m q L → valid_ops q L ops →
    ∃ m' L', run_ops m ops = .ok m' ∧ WF m' q L' ∧
      L'.length + count_removes ops = L.length + count_inserts ops
  | [], m, L, hwf, _ => ⟨m, L, rfl, hwf, rfl⟩
  | .insert b e p :: rest, m, L, hwf, hv => by
    obtain ⟨hb, he, hrest⟩ := hv
    obtain ⟨m1, hrun, hwf1, -⟩ := pq_insert_WF p hwf hb he
    obtain ⟨m', L', hrun', hwf', hlen⟩ := run_ops_WF rest m1 _ hwf1 hrest
    refine ⟨m', L', by simp [run_ops, run_op, hrun, hrun', bind, Except.bind], hwf', ?_⟩
    rw [length_insert_before] at hlen
    simp only [count_inserts, count_removes]
    omega
  | .remove x :: rest, m, L, hwf, hv => by
    obtain ⟨hx, hrest⟩ := hv
    obtain ⟨s, t, hst, hxs⟩ : ∃ s t, L = s ++ x :: t ∧ x ∉ s := by
      obtain ⟨s, t, hst⟩ := List.append_of_mem hx
      refine ⟨s, t, hst, fun hxs => ?_⟩
      have hnd := hwf.1
      rw [hst] at hnd
      simp only [List.nodup_cons, List.nodup_append, List.mem_append, List.append_assoc] at hnd
      exact hnd.2.2.2 hxs (by simp)
    have her : L.erase x = s ++ t := by
      rw [hst, List.erase_append_right _ hxs, List.erase_cons_head]
    rw [her] at hrest
    rw [hst] at hwf
    obtain ⟨a, b, -, -, -, hrem, hwf1⟩ := pq_remove_WF hwf
    obtain ⟨m', L', hrun', hwf', hlen⟩ := run_ops_WF rest _ _ hwf1 hrest
    refine ⟨m', L', by simp [run_ops, run_op, hrem, hrun', bind, Except.bind, Except.map],
      hwf', ?_⟩
    simp only [count_inserts, count_removes, hst, List.length_append, List.length_cons] at hlen ⊢
    omega

/-- Without the assertion, after any valid sequence of `pq_insert` and `pq_remove` calls
on a freshly initialised container, `pq_size` returns the number of inserts minus the
number of removes, given fuel beyond that number. -/
theorem pq_size_bookkeeping_unchecked (m : Mem) (q : pq) (ops : List Op)
    (hv : valid_ops q [] ops) :
    ∃ m', run_ops (pq_init m q) ops = .ok m' ∧
      ∀ fuel, count_inserts ops - count_removes ops < fuel →
        pq_size false fuel m' q = .ok (count_inserts ops - count_removes ops) := by
  obtain ⟨m', L', hrun, hwf, hlen⟩ := run_ops_WF ops (pq_init m q) [] (pq_init_WF m q) hv
  refine ⟨m', hrun, fun fuel hf => ?_⟩
  have hL : L'.length = count_inserts ops - count_removes ops := by
    simp only [List.length_nil] at hlen; omega
  rw [← hL] at hf ⊢
  exact pq_size_unchecked hwf fuel hf

/-- Scenario A fails for every non-empty list of nodes, every memory and both settings of
the assertion: the first `pq_push_back` does not return. -/
theorem push_back_build_front_fails (dbg : Bool) (fuel : Nat) (m : Mem) (q : pq)
    (e : Nat) (p : Int) (rest : List (Nat × Int)) :
    ∃ err, push_back_build_front dbg fuel m q ((e, p) :: rest) = .error err := by
  cases dbg with
  | false =>
    exact ⟨.fault, by
      simp only [push_back_build_front, push_back_all, pq_push_back_init_faults, bind,
        Except.bind]⟩
  | true =>
    exact ⟨.timeout, by
      simp only [push_back_build_front, push_back_all, pq_push_back_checked_diverges, bind,
        Except.bind]⟩

/-- Scenario C fails for every non-empty list of nodes, every memory and both settings of
the assertion: the first `max_heap_insert` does not return. -/
theorem heap_insert_front_fails (dbg : Bool) (fuel : Nat) (m : Mem) (q : pq)
    (e : Nat) (p : Int) (rest : List (Nat × Int)) :
    ∃ err, heap_insert_front dbg fuel m q ((e, p) :: rest) = .error err := by
  cases dbg with
  | false =>
    exact ⟨.fault, by
      simp only [heap_insert_front, max_heap_insert_all, max_heap_insert,
        pq_push_back_init_faults, bind, Except.bind]⟩
  | true =>
    exact ⟨.timeout, by
      simp only [heap_insert_front, max_heap_insert_all, max_heap_insert,
        pq_push_back_checked_diverges, bind, Except.bind]⟩

/-- Without the assertion `pq_empty` tells whether a well-formed container has no live
node. -/
theorem pq_empty_unchecked {m : Mem} {q : pq} {L : List Nat} (hwf : WF m q L) (fuel : Nat) :
    pq_empty false fuel m q = .ok L.isEmpty := by
  have hl := hwf.2.2.2
  cases L with
  | nil =>
    have h : (m q.head).next = some q.tail := hl.1.1
    simp [pq_empty, pq_front_unchecked, h, pq_tail]
  | cons x r =>
    have h : (m q.head).next = some x := hl.1.1
    have hx : x ≠ q.tail := fun hh => WF_tail_not_mem hwf (by simp [hh])
    simp [pq_empty, pq_front_unchecked, h, pq_tail, hx]

/-- A list splits at any of its positions. -/
theorem split_at_index (L : List Nat) (k : Nat) (hk : k < L.length) :
    L = L.take k ++ L[k] :: L.drop (k + 1) := by
  rw [← List.drop_eq_getElem_cons hk, List.take_append_drop]

/-- The cell behind position `k` of the live sequence followed by the tail sentinel. -/
theorem head_drop_succ (L : List Nat) (z : Nat) (k : Nat) (hk : k < L.length) :
    (L.drop (k + 1) ++ [z]).head? = (L ++ [z])[k + 1]? := by
  have h : (L ++ [z]).drop (k + 1) = L.drop (k + 1) ++ [z] :=
    List.drop_append_of_le_length (by omega)
  rw [← h, List.head?_drop]

/-- Whenever `pq_remove` returns, the result memory is the old one with one `next` and
one `prev` link rewritten. -/
theorem pq_remove_ok_shape {m m' : Mem} {e : Nat} {r : Ptr}
    (h : pq_remove m (some e) = .ok (r, m')) :
    ∃ a b, (m e).prev = some a ∧ (set_next m a (m e).next e).next = some b ∧
      m' = set_prev (set_next m a (m e).next) b (set_next m a (m e).next e).prev := by
  unfold pq_remove at h
  simp only [deref, bind, Except.bind, pure, Except.pure] at h
  cases hp : (m e).prev with
  | none => simp only [hp] at h; cases h
  | some a =>
    simp only [hp] at h
    cases hn : (set_next m a (m e).next e).next with
    | none => simp only [hn] at h; cases h
    | some b =>
      simp only [hn] at h
      simp only [Except.ok.injEq, Prod.mk.injEq] at h
      exact ⟨a, b, rfl, hn, h.2.symm⟩

/-- Whenever `pq_remove` returns, no rank, priority or cached heap link has changed. -/
theorem pq_remove_ok_frame {m m' : Mem} {elem r : Ptr}
    (h : pq_remove m elem = .ok (r, m')) : ∀ x, same_heap_fields (m x) (m' x) := by
  cases elem with
  | none => simp [pq_remove, deref, bind, Except.bind] at h
  | some e =>
    obtain ⟨a, b, -, -, hm⟩ := pq_remove_ok_shape h
    intro x
    subst hm
    simp [same_heap_fields]

/-- Whenever `pq_insert` returns, the result memory is the old one with the four link
writes and the five writes to the fields of the new node. -/
theorem pq_insert_ok_shape {m m' : Mem} {a b e : Nat} {p : Int}
    (ha : (m b).prev = some a) (hbe : b ≠ e)
    (h : pq_insert m (some b) (some e) p = .ok m') :
    ∃ P Lc R, m' = set_priority (set_id (set_right (set_left (set_parent (spliced m a b e)
      e P) e Lc) e R) e (wrap_int ((m b).id + 1))) e p := by
  unfold pq_insert at h
  simp only [deref, bind, Except.bind, pure, Except.pure, set_next_prev, set_prev_prev, hbe,
    if_false, ha] at h
  split at h
  · cases h
  · rename_i P hP
    split at h
    · cases h
    · rename_i Lc hLc
      split at h
      · cases h
      · rename_i R hR
        refine ⟨P, Lc, R, ?_⟩
        simp only [Except.ok.injEq] at h
        rw [← h]
        simp [spliced, hbe]

/-- The function `pq_remove` computed from the two links of the node. -/
theorem pq_remove_eq {m : Mem} {x a b : Nat} (hp : (m x).prev = some a)
    (hn : (m x).next = some b) (hxa : x ≠ a) :
    pq_remove m (some x) = .ok (some b, unlinked m a b) := by
  simp [pq_remove, deref, bind, Except.bind, hp, hn, hxa, unlinked, pure, Except.pure]

/-- In a well-formed container a live node and its two neighbours are three different
cells, and the neighbour behind it is the next live node or the tail sentinel. -/
theorem WF_neighbours {m : Mem} {q : pq} {s t : List Nat} {x : Nat}
    (hwf : WF m q (s ++ x :: t)) :
    ∃ a b, (m x).prev = some a ∧ (m x).next = some b ∧ a ≠ x ∧ b ≠ x ∧ a ≠ b ∧
      (t ++ [q.tail]).head? = some b := by
  obtain ⟨hnd, -, -, hl⟩ := hwf
  obtain ⟨pre, a, hpre, -⟩ := cons_eq_concat q.head s
  obtain ⟨b, post, hpost, -, hhd⟩ := concat_eq_cons t q.tail
  have hc : q.head :: ((s ++ x :: t) ++ [q.tail]) = pre ++ a :: x :: b :: post := by
    have : q.head :: ((s ++ x :: t) ++ [q.tail]) = (q.head :: s) ++ x :: (t ++ [q.tail]) := by
      simp
    rw [this, hpre, hpost]; simp
  rw [hc] at hnd hl
  have h1 := linked_link hl
  have hl2 : linked m ((pre ++ [a]) ++ x :: b :: post) := by simpa using hl
  have h2 := linked_link hl2
  simp only [List.nodup_append, List.nodup_cons, List.mem_cons, List.mem_append, not_or] at hnd
  obtain ⟨-, ⟨⟨hax, hab, -⟩, ⟨hxb, -⟩, -, -⟩, -⟩ := hnd
  exact ⟨a, b, h1.2, h2.1, hax, fun h => hxb h.symm, hab, hhd⟩

/-- The function `pq_remove` on the live node at index `k`, with the two neighbours named. -/
theorem pq_remove_WF_index {m : Mem} {q : pq} {L : List Nat} (hwf : WF m q L) (k : Nat)
    (hk : k < L.length) :
    ∃ a b, (m L[k]).prev = some a ∧ (m L[k]).next = some b ∧ a ≠ b ∧
      pq_remove m (some L[k]) = .ok (some b, unlinked m a b) ∧
      WF (unlinked m a b) q (L.eraseIdx k) := by
  have hwf' : WF m q (L.take k ++ L[k] :: L.drop (k + 1)) := by
    rw [← split_at_index L k hk]; exact hwf
  obtain ⟨a, b, hp, hn, hax, -, hab, -⟩ := WF_neighbours hwf'
  obtain ⟨a1, b1, -, -, -, hrem, hwf1⟩ := pq_remove_WF hwf'
  have hrem2 := pq_remove_eq hp hn (fun h => hax h.symm)
  rw [hrem] at hrem2
  simp only [Except.ok.injEq, Prod.mk.injEq] at hrem2
  refine ⟨a, b, hp, hn, hab, pq_remove_eq hp hn (fun h => hax h.symm), ?_⟩
  rw [List.eraseIdx_eq_take_drop_succ, ← hrem2.2]
  exact hwf1

/-- Neighbours in a linked chain, by index. -/
theorem linked_index {m : Mem} : ∀ (C : List Nat), linked m C → ∀ (i : Nat)
    (h : i + 1 < C.length), (m C[i]).next = some C[i + 1] ∧ (m C[i + 1]).prev = some C[i]
  | [], _, _, h => by simp at h
  | [_], _, _, h => by simp at h
  | a :: b :: r, hl, 0, _ => hl.1
  | a :: b :: r, hl, i + 1, h => by
    have := linked_index (b :: r) hl.2 i (by simpa using h)
    simpa using this

/-- In a well-formed container the `prev` link of the live node at index `i` leads to the
head sentinel for `i = 0` and to the live node at index `i - 1` otherwise. -/
theorem WF_prev_index {m : Mem} {q : pq} {L : List Nat} (hwf : WF m q L) (i : Nat)
    (hi : i < L.length) : (m L[i]).prev = (q.head :: L)[i]? := by
  have hlen : i + 1 < (q.head :: (L ++ [q.tail])).length := by simp; omega
  have hlen0 : i < (q.head :: (L ++ [q.tail])).length := by omega
  have hlen1 : i < (q.head :: L).length := by simp; omega
  have h := (linked_index _ hwf.2.2.2 i hlen).2
  have e1 : (q.head :: (L ++ [q.tail]))[i + 1] = L[i] := by
    simp [List.getElem_append_left, hi]
  have e2 : (q.head :: (L ++ [q.tail]))[i] = (q.head :: L)[i] := by
    cases i with
    | zero => rfl
    | succ j => simp [List.getElem_append_left, (by omega : j < L.length)]
  rw [e1, e2] at h
  rw [h, List.getElem?_eq_getElem]

/-- In a well-formed container the `next` link of the live node at index `i` leads to the
live node at index `i + 1`, to the tail sentinel from the last node. -/
theorem WF_next_index {m : Mem} {q : pq} {L : List Nat} (hwf : WF m q L) (i : Nat)
    (hi : i < L.length) : (m L[i]).next = (L ++ [q.tail])[i + 1]? := by
  have hlen : i + 1 + 1 < (q.head :: (L ++ [q.tail])).length := by simp; omega
  have hlen0 : i + 1 < (q.head :: (L ++ [q.tail])).length := by omega
  have hlen1 : i + 1 < (L ++ [q.tail]).length := by simp; omega
  have h := (linked_index _ hwf.2.2.2 (i + 1) hlen).1
  have e1 : (q.head :: (L ++ [q.tail]))[i + 1] = L[i] := by
    simp [List.getElem_append_left, hi]
  have e2 : (q.head :: (L ++ [q.tail]))[i + 1 + 1] = (L ++ [q.tail])[i + 1] := by
    simp
  rw [e1, e2] at h
  rw [h, List.getElem?_eq_getElem]

/-- In a well-formed container no live node has an empty `next` or `prev` link. -/
theorem WF_links_ne_none {m : Mem} {q : pq} {L : List Nat} (hwf : WF m q L) (i : Nat)
    (hi : i < L.length) : (m L[i]).next ≠ none ∧ (m L[i]).prev ≠ none := by
  have hlen1 : i + 1 < (L ++ [q.tail]).length := by simp; omega
  have hlen2 : i < (q.head :: L).length := by simp; omega
  rw [WF_next_index hwf i hi, WF_prev_index hwf i hi, List.getElem?_eq_getElem hlen1,
    List.getElem?_eq_getElem hlen2]
  simp

/-- The loop of `parent` from the live node at index `i`: `k` steps lead to the live node
at index `i - k`, and to `NULL` when `k` exceeds `i`. -/
theorem parent_loop_eval {m : Mem} {q : pq} {L : List Nat} (hwf : WF m q L) :
    ∀ (k i : Nat) (hi : i < L.length),
      parent_loop m k L[i] = .ok (if k ≤ i then L[i - k]? else none)
  | 0, i, hi => by simp [parent_loop]
  | k + 1, i, hi => by
    have hp := WF_prev_index hwf i hi
    cases i with
    | zero =>
      have e : (q.head :: L)[0]? = some q.head := by simp
      rw [e] at hp
      simp only [parent_loop, hp, deref, bind, Except.bind, hwf.2.1, if_true]
      simp
    | succ j =>
      have hj : j < L.length := by omega
      have e : (q.head :: L)[j + 1]? = some L[j] := by
        rw [List.getElem?_cons_succ, List.getElem?_eq_getElem]
      rw [e] at hp
      have hnn := (WF_links_ne_none hwf j hj).2
      have ih := parent_loop_eval hwf k j hj
      simp only [parent_loop, hp, deref, bind, Except.bind, hnn, if_false, ih]
      by_cases hkj : k ≤ j
      · rw [if_pos hkj, if_pos (by omega), show j + 1 - (k + 1) = j - k by omega]
      · rw [if_neg hkj, if_neg (by omega)]

/-- During the loop of `parent` from a live node the variable `elem` only holds live
nodes. -/
theorem parent_loop_trace_live {m : Mem} {q : pq} {L : List Nat} (hwf : WF m q L) :
    ∀ (k i : Nat) (hi : i < L.length), ∀ x ∈ parent_loop_trace m k L[i], x ∈ L
  | 0, i, hi, x, hx => by
    simp only [parent_loop_trace, List.mem_singleton] at hx
    rw [hx]; exact List.getElem_mem _
  | k + 1, i, hi, x, hx => by
    have hp := WF_prev_index hwf i hi
    simp only [parent_loop_trace, List.mem_cons] at hx
    rcases hx with hx | hx
    · rw [hx]; exact List.getElem_mem _
    · cases i with
      | zero =>
        have e : (q.head :: L)[0]? = some q.head := by simp
        rw [e] at hp
        simp [hp, hwf.2.1] at hx
      | succ j =>
        have hj : j < L.length := by omega
        have e : (q.head :: L)[j + 1]? = some L[j] := by
          rw [List.getElem?_cons_succ, List.getElem?_eq_getElem]
        rw [e] at hp
        have hnn := (WF_links_ne_none hwf j hj).2
        simp only [hp, hnn, if_false] at hx
        exact parent_loop_trace_live hwf k j hj x hx

/-- The positions `1 .. length` carry nodes. -/
theorem node_at_some {L : List Nat} {j : Nat} (h1 : 1 ≤ j) (h2 : j ≤ L.length) :
    ∃ c, node_at L j = some c ∧ c ∈ L := by
  have hlt : j - 1 < L.length := by omega
  refine ⟨L[j - 1], ?_, List.getElem_mem _⟩
  unfold node_at
  rw [if_neg (by omega), List.getElem?_eq_getElem]

/-- In a well-formed container the head sentinel is not a live node. -/
theorem WF_head_not_mem {m : Mem} {q : pq} {L : List Nat} (hwf : WF m q L) : q.head ∉ L := by
  have hnd := hwf.1
  simp only [List.nodup_cons, List.mem_append, not_or] at hnd
  exact hnd.1.1

/-- The number of rounds of the loop of `parent` for a node of rank `k + 1`. -/
theorem parent_rounds (k : Nat) :
    Int.toNat (((k : Int) + 1) - Int.tdiv ((k : Int) + 1) 2) = k + 1 - (k + 1) / 2 := by
  rw [Int.tdiv_eq_ediv (by omega) (by omega)]
  omega

/-- Every position lies in its own subtree. -/
theorem in_subtree_refl (k : Nat) : in_subtree k k := ⟨0, Nat.zero_le _, by simp⟩

/-- Positions in a subtree are not in front of its root. -/
theorem in_subtree_le {k j : Nat} (h : in_subtree k j) : k ≤ j := by
  obtain ⟨d, -, hd⟩ := h
  rw [← hd]; exact Nat.div_le_self _ _

/-- Halving `d + 1` times is halving once more after halving `d` times. -/
theorem div_pow_succ (j d : Nat) : j / 2 ^ (d + 1) = j / 2 ^ d / 2 := by
  rw [pow_succ, Nat.div_div_eq_div_mul]

/-- Halving `d + 1` times is halving `d` times after halving once. -/
theorem div_pow_succ' (j d : Nat) : j / 2 ^ (d + 1) = j / 2 / 2 ^ d := by
  rw [pow_succ', Nat.div_div_eq_div_mul]

/-- A position that survives `d` halvings is larger than `d`. -/
theorem lt_of_div_pow_pos {j d : Nat} (h : 1 ≤ j / 2 ^ d) : d < j := by
  have h2 : 2 ^ d ≤ j := by
    by_contra hc
    rw [Nat.div_eq_of_lt (by omega)] at h
    omega
  exact lt_of_lt_of_le (Nat.lt_two_pow d) h2

/-- A position of the subtree other than the root lies below one of the two children. -/
theorem in_subtree_cases {k j : Nat} (h : in_subtree k j) (hne : j ≠ k) :
    in_subtree (2 * k) j ∨ in_subtree (2 * k + 1) j := by
  obtain ⟨d, hdj, hd⟩ := h
  cases d with
  | zero => simp at hd; exact absurd hd hne
  | succ d =>
    rw [div_pow_succ] at hd
    have h2 : j / 2 ^ d = 2 * k ∨ j / 2 ^ d = 2 * k + 1 := by omega
    rcases h2 with h2 | h2
    · exact Or.inl ⟨d, by omega, h2⟩
    · exact Or.inr ⟨d, by omega, h2⟩

/-- The subtree of the left child is part of the subtree. -/
theorem in_subtree_of_left {k j : Nat} (hk : 1 ≤ k) (h : in_subtree (2 * k) j) :
    in_subtree k j := by
  obtain ⟨d, hdj, hd⟩ := h
  have hlt : d < j := lt_of_div_pow_pos (by omega)
  exact ⟨d + 1, by omega, by rw [div_pow_succ, hd]; omega⟩

/-- The subtree of the right child is part of the subtree. -/
theorem in_subtree_of_right {k j : Nat} (h : in_subtree (2 * k + 1) j) :
    in_subtree k j := by
  obtain ⟨d, hdj, hd⟩ := h
  have hlt : d < j := lt_of_div_pow_pos (by omega)
  exact ⟨d + 1, by omega, by rw [div_pow_succ, hd]; omega⟩

/-- The children of a position of the subtree are in the subtree. -/
theorem in_subtree_child {k j c : Nat} (hk : 1 ≤ k) (h : in_subtree k j)
    (hc : c = 2 * j ∨ c = 2 * j + 1) : in_subtree k c := by
  obtain ⟨d, hdj, hd⟩ := h
  have hlt : d < j := lt_of_div_pow_pos (by omega)
  refine ⟨d + 1, by omega, ?_⟩
  rw [div_pow_succ']
  have : c / 2 = j := by omega
  rw [this, hd]

/-- Halving at least once at most halves. -/
theorem div_pow_le_half (x t : Nat) (ht : 1 ≤ t) : x / 2 ^ t ≤ x / 2 := by
  obtain ⟨s, rfl⟩ : ∃ s, t = s + 1 := ⟨t - 1, by omega⟩
  rw [div_pow_succ']
  exact Nat.div_le_self _ _

/-- Halving `d + t` times is halving `t` times after halving `d` times. -/
theorem div_pow_add (j d t : Nat) : j / 2 ^ (d + t) = j / 2 ^ d / 2 ^ t := by
  rw [pow_add, Nat.div_div_eq_div_mul]

/-- The subtrees of the two children of a position do not meet. -/
theorem in_subtree_disjoint {k j : Nat} (hk : 1 ≤ k) (h1 : in_subtree (2 * k) j)
    (h2 : in_subtree (2 * k + 1) j) : False := by
  obtain ⟨d, -, hd⟩ := h1
  obtain ⟨e, -, he⟩ := h2
  rcases Nat.lt_trichotomy d e with h | h | h
  · obtain ⟨t, rfl⟩ : ∃ t, e = d + t := ⟨e - d, by omega⟩
    rw [div_pow_add, hd] at he
    have := div_pow_le_half (2 * k) t (by omega)
    omega
  · subst h; omega
  · obtain ⟨t, rfl⟩ : ∃ t, d = e + t := ⟨d - e, by omega⟩
    rw [div_pow_add, he] at hd
    have := div_pow_le_half (2 * k + 1) t (by omega)
    omega

/-- Nothing is behind `NULL`. -/
theorem dominates_none {m : Mem} {x : Int} : dominates m x none := fun _ h => by cases h

/-- Dominating the node behind a pointer. -/
theorem dominates_some {m : Mem} {x : Int} {c : Nat} :
    dominates m x (some c) ↔ (m c).priority ≤ x :=
  ⟨fun h => h c rfl, fun h _ hc => by cases hc; exact h⟩

/-- The function `exchange` on two cells. -/
theorem exchange_eq (m : Mem) (e c : Nat) :
    exchange m (some e) (some c) = .ok (exchanged m e c) := by
  simp [exchange, exchanged, deref, bind, Except.bind, pure, Except.pure]

/-- One round of `max_heapify`: either the node dominates both cached children and nothing
is written, or one child `c` holds a larger priority than the node and at least the
priority of the other child, the two priorities are exchanged and the call continues
at `c`. -/
theorem max_heapify_step (m : Mem) (e : Nat) :
    (dominates m (m e).priority (m e).left ∧ dominates m (m e).priority (m e).right ∧
        ∀ f, max_heapify (f + 1) m (some e) = .ok m) ∨
      ∃ c, ((m e).left = some c ∨ (m e).right = some c) ∧ (m e).priority < (m c).priority ∧
        dominates m (m c).priority (m e).left ∧ dominates m (m c).priority (m e).right ∧
        ∀ f, max_heapify (f + 1) m (some e) = max_heapify f (exchanged m e c) (some c) := by
  cases hl : (m e).left with
  | none =>
    cases hr : (m e).right with
    | none =>
      left
      refine ⟨dominates_none, dominates_none, ?_⟩
      intro f; simp [max_heapify, deref, bind, Except.bind, hl, hr, pure, Except.pure]
    | some r =>
      by_cases h : (m r).priority > (m e).priority
      · right
        have hre : r ≠ e := fun hh => by rw [hh] at h; exact lt_irrefl _ h
        refine ⟨r, Or.inr rfl, h, dominates_none,
          dominates_some.2 (le_refl _), ?_⟩
        intro f; simp [max_heapify, deref, bind, Except.bind, hl, hr, pure, Except.pure, h, hre,
          exchange_eq]
      · left
        refine ⟨dominates_none, dominates_some.2 (not_lt.1 h), ?_⟩
        intro f; simp [max_heapify, deref, bind, Except.bind, hl, hr, pure, Except.pure, h]
  | some l =>
    cases hr : (m e).right with
    | none =>
      by_cases h : (m l).priority > (m e).priority
      · right
        have hle : l ≠ e := fun hh => by rw [hh] at h; exact lt_irrefl _ h
        refine ⟨l, Or.inl rfl, h, dominates_some.2 (le_refl _),
          dominates_none, ?_⟩
        intro f; simp [max_heapify, deref, bind, Except.bind, hl, hr, pure, Except.pure, h, hle,
          exchange_eq]
      · left
        refine ⟨dominates_some.2 (not_lt.1 h), dominates_none, ?_⟩
        intro f; simp [max_heapify, deref, bind, Except.bind, hl, hr, pure, Except.pure, h]
    | some r =>
      by_cases h : (m l).priority > (m e).priority
      · by_cases h2 : (m r).priority > (m l).priority
        · right
          have hre : r ≠ e := fun hh => by rw [hh] at h2; exact lt_irrefl _ (lt_trans h h2)
          refine ⟨r, Or.inr rfl, lt_trans h h2, dominates_some.2 (le_of_lt h2),
            dominates_some.2 (le_refl _), ?_⟩
          intro f; simp [max_heapify, deref, bind, Except.bind, hl, hr, pure, Except.pure, h, h2, hre,
            exchange_eq]
        · right
          have hle : l ≠ e := fun hh => by rw [hh] at h; exact lt_irrefl _ h
          refine ⟨l, Or.inl rfl, h, dominates_some.2 (le_refl _),
            dominates_some.2 (not_lt.1 h2), ?_⟩
          intro f; simp [max_heapify, deref, bind, Except.bind, hl, hr, pure, Except.pure, h, h2, hle,
            exchange_eq]
      · by_cases h2 : (m r).priority > (m e).priority
        · right
          have hre : r ≠ e := fun hh => by rw [hh] at h2; exact lt_irrefl _ h2
          refine ⟨r, Or.inr rfl, h2,
            dominates_some.2 (le_trans (not_lt.1 h) (le_of_lt h2)),
            dominates_some.2 (le_refl _), ?_⟩
          intro f; simp [max_heapify, deref, bind, Except.bind, hl, hr, pure, Except.pure, h, h2, hre,
            exchange_eq]
        · left
          refine ⟨dominates_some.2 (not_lt.1 h),
            dominates_some.2 (not_lt.1 h2), ?_⟩
          intro f; simp [max_heapify, deref, bind, Except.bind, hl, hr, pure, Except.pure, h, h2]

/-- After `exchange`, cells other than the two keep their priority. -/
theorem exchanged_priority_other {m : Mem} {e c x : Nat} (h1 : x ≠ e) (h2 : x ≠ c) :
    (exchanged m e c x).priority = (m x).priority := by
  simp [exchanged, h1, h2]

/-- After `exchange`, the first cell holds the old priority of the second. -/
theorem exchanged_priority_fst {m : Mem} {e c : Nat} (h : e ≠ c) :
    (exchanged m e c e).priority = (m c).priority := by
  simp [exchanged, h]

/-- After `exchange`, the second cell holds the old priority of the first. -/
theorem exchanged_priority_snd {m : Mem} {e c : Nat} :
    (exchanged m e c c).priority = (m e).priority := by
  simp [exchanged]

/-- The function `exchange` writes priorities only. -/
theorem exchanged_shape (m : Mem) (e c x : Nat) :
    same_but_priority (m x) (exchanged m e c x) := by
  simp [same_but_priority, exchanged]

/-- Agreement on everything but the priority is reflexive. -/
theorem same_but_priority_refl (c : pq_elem) : same_but_priority c c :=
  ⟨rfl, rfl, rfl, rfl, rfl, rfl⟩

/-- Agreement on everything but the priority is transitive. -/
theorem same_but_priority_trans {a b c : pq_elem} (h1 : same_but_priority a b)
    (h2 : same_but_priority b c) : same_but_priority a c :=
  ⟨h2.1.trans h1.1, h2.2.1.trans h1.2.1, h2.2.2.1.trans h1.2.2.1,
    h2.2.2.2.1.trans h1.2.2.2.1, h2.2.2.2.2.1.trans h1.2.2.2.2.1,
    h2.2.2.2.2.2.trans h1.2.2.2.2.2⟩

/-- Well-formedness survives writes to priorities. -/
theorem WF_of_shape {m m' : Mem} {q : pq} {L : List Nat}
    (h : ∀ x, same_but_priority (m x) (m' x)) (hwf : WF m q L) : WF m' q L :=
  WF_of_links_eq (fun x => ⟨(h x).2.1, (h x).1⟩) hwf

/-- The cached children survive writes to priorities. -/
theorem children_inv_of_shape {m m' : Mem} {L : List Nat}
    (h : ∀ x, same_but_priority (m x) (m' x)) (hch : children_inv m L) :
    children_inv m' L := by
  intro k hk
  rw [(h _).2.2.2.1, (h _).2.2.2.2.1]
  exact hch k hk

/-- The live sequence of a well-formed container has no repetition. -/
theorem WF_nodup {m : Mem} {q : pq} {L : List Nat} (hwf : WF m q L) : L.Nodup := by
  have hnd := hwf.1
  simp only [List.nodup_cons, List.nodup_append] at hnd
  exact hnd.2.1

/-- A position that carries a node is between `1` and the length, and the node is the
list entry in front of that index. -/
theorem node_at_eq_some {L : List Nat} {j c : Nat} (h : node_at L j = some c) :
    1 ≤ j ∧ j ≤ L.length ∧ L[j - 1]? = some c := by
  unfold node_at at h
  split at h
  · cases h
  · rename_i hj
    obtain ⟨hlt, -⟩ := List.getElem?_eq_some.1 h
    exact ⟨by omega, by omega, h⟩

/-- In a list without repetition a node has one position. -/
theorem node_at_inj {L : List Nat} (hnd : L.Nodup) {i j c : Nat}
    (hi : node_at L i = some c) (hj : node_at L j = some c) : i = j := by
  obtain ⟨hi1, hi2, hi3⟩ := node_at_eq_some hi
  obtain ⟨hj1, hj2, hj3⟩ := node_at_eq_some hj
  obtain ⟨hil, hie⟩ := List.getElem?_eq_some.1 hi3
  obtain ⟨hjl, hje⟩ := List.getElem?_eq_some.1 hj3
  have := (List.Nodup.getElem_inj_iff hnd).1 (hie.trans hje.symm)
  omega

/-- The cached children of the node at a position, under `children_inv`. -/
theorem children_at {m : Mem} {L : List Nat} (hch : children_inv m L) {k e : Nat}
    (he : node_at L k = some e) :
    (m e).left = node_at L (2 * k) ∧ (m e).right = node_at L (2 * k + 1) := by
  obtain ⟨h1, h2, h3⟩ := node_at_eq_some he
  obtain ⟨hl, hee⟩ := List.getElem?_eq_some.1 h3
  have := hch (k - 1) hl
  rw [hee, show k - 1 + 1 = k by omega] at this
  exact this

/-- The max-heap property at a position, spelled out. -/
theorem heap_at_iff {m : Mem} {L : List Nat} {j : Nat} :
    heap_at m L j ↔ ∀ e, node_at L j = some e →
      dominates m (m e).priority (node_at L (2 * j)) ∧
        dominates m (m e).priority (node_at L (2 * j + 1)) := by
  unfold heap_at
  cases h : node_at L j with
  | none => simp
  | some e => simp

/-- The max-heap property of a subtree, at every position of the subtree. -/
theorem subtree_heap_at {m : Mem} {L : List Nat} {k : Nat} (h : subtree_heap m L k) {j : Nat}
    (hj : in_subtree k j) : heap_at m L j := by
  by_cases hlt : j < L.length + 1
  · exact h j hlt hj
  · rw [heap_at_iff]
    intro e he
    have := (node_at_eq_some he).2.1
    omega

/-- The max-heap property at a position only depends on the priorities at the position
and at its two children. -/
theorem heap_at_congr {m m' : Mem} {L : List Nat} {j : Nat}
    (h : ∀ p c, (p = j ∨ p = 2 * j ∨ p = 2 * j + 1) → node_at L p = some c →
      (m' c).priority = (m c).priority)
    (hh : heap_at m L j) : heap_at m' L j := by
  rw [heap_at_iff] at hh ⊢
  intro e he
  obtain ⟨h1, h2⟩ := hh e he
  rw [h j e (Or.inl rfl) he]
  refine ⟨fun c hc => ?_, fun c hc => ?_⟩
  · rw [h _ c (Or.inr (Or.inl rfl)) hc]; exact h1 c hc
  · rw [h _ c (Or.inr (Or.inr rfl)) hc]; exact h2 c hc

/-- In a subtree with the max-heap property no node has a larger priority than the
root. -/
theorem subtree_root_max {m : Mem} {L : List Nat} {k e : Nat} (hnd : L.Nodup)
    (hh : subtree_heap m L k) (he : node_at L k = some e) :
    ∀ (d j c : Nat), j / 2 ^ d = k → node_at L j = some c → (m c).priority ≤ (m e).priority
  | 0, j, c, hd, hc => by
    simp at hd
    subst hd
    rw [he] at hc
    cases hc
    exact le_refl _
  | d + 1, j, c, hd, hc => by
    have hk1 := (node_at_eq_some he).1
    obtain ⟨hj1, hjn, -⟩ := node_at_eq_some hc
    rw [div_pow_succ'] at hd
    have hj2 : 1 ≤ j / 2 := by
      have := in_subtree_le ⟨d, by
        have := lt_of_div_pow_pos (j := j / 2) (d := d) (by omega); omega, hd⟩
      omega
    obtain ⟨c', hc', -⟩ := node_at_some (L := L) hj2 (by omega)
    have ih := subtree_root_max hnd hh he d (j / 2) c' hd hc'
    have hsub : in_subtree k (j / 2) :=
      ⟨d, by have := lt_of_div_pow_pos (j := j / 2) (d := d) (by omega); omega, hd⟩
    have hat := heap_at_iff.1 (subtree_heap_at hh hsub) c' hc'
    refine le_trans ?_ ih
    rcases Nat.even_or_odd' j with ⟨r, hr | hr⟩
    · have : 2 * (j / 2) = j := by omega
      rw [this] at hat
      exact hat.1 c hc
    · have : 2 * (j / 2) + 1 = j := by omega
      rw [this] at hat
      exact hat.2 c hc

/-- Sift-down on positions: when the subtrees below the two children of position `k` are
max-heaps, `max_heapify` on the node at position `k` returns for every fuel above
`length - k`, writes priorities only, makes the subtree at `k` a max-heap, leaves the
priorities outside that subtree alone and raises no priority of the subtree above a
bound that held before. -/
theorem max_heapify_subtree {L : List Nat} (hnd : L.Nodup) :
    ∀ (d : Nat) (m : Mem) (k : Nat), L.length - k ≤ d → 1 ≤ k → k ≤ L.length →
      children_inv m L → subtree_heap m L (2 * k) → subtree_heap m L (2 * k + 1) →
      ∃ m', (∀ fuel, L.length - k < fuel → max_heapify fuel m (node_at L k) = .ok m') ∧
        (∀ x, same_but_priority (m x) (m' x)) ∧ subtree_heap m' L k ∧
        (∀ x, (∀ j, in_subtree k j → node_at L j ≠ some x) →
          (m' x).priority = (m x).priority) ∧
        ∀ B, (∀ j c, in_subtree k j → node_at L j = some c → (m c).priority ≤ B) →
          ∀ j c, in_subtree k j → node_at L j = some c → (m' c).priority ≤ B
  | d, m, k, hd, hk1, hkn, hch, hl, hr => by
    obtain ⟨e, he, -⟩ := node_at_some hk1 hkn
    obtain ⟨hleft, hright⟩ := children_at hch he
    rcases max_heapify_step m e with ⟨hdl, hdr, hrun⟩ | ⟨c, hc, hlt, hdl, hdr, hrun⟩
    · -- the node dominates both children: nothing is written
      refine ⟨m, fun fuel hf => ?_, fun x => same_but_priority_refl _, ?_, fun _ _ => rfl,
        fun B hB => hB⟩
      · obtain ⟨f, rfl⟩ : ∃ f, fuel = f + 1 := ⟨fuel - 1, by omega⟩
        rw [he]; exact hrun f
      · intro j _ hj
        by_cases hjk : j = k
        · subst hjk
          rw [heap_at_iff]
          intro e' he'
          rw [he] at he'
          cases he'
          rw [← hleft, ← hright]
          exact ⟨hdl, hdr⟩
        · rcases in_subtree_cases hj hjk with h | h
          · exact subtree_heap_at hl h
          · exact subtree_heap_at hr h
    · -- the child `c` at position `ck` wins: exchange and continue there
      obtain ⟨ck, hck, hcpos⟩ : ∃ ck, (ck = 2 * k ∨ ck = 2 * k + 1) ∧ node_at L ck = some c := by
        rcases hc with hc | hc
        · exact ⟨2 * k, Or.inl rfl, by rw [← hleft, hc]⟩
        · exact ⟨2 * k + 1, Or.inr rfl, by rw [← hright, hc]⟩
      obtain ⟨-, hckn, -⟩ := node_at_eq_some hcpos
      have hec : e ≠ c := fun h => by
        have := node_at_inj hnd he (h ▸ hcpos); omega
      have hsubck : subtree_heap m L ck := by
        rcases hck with h | h
        · rw [h]; exact hl
        · rw [h]; exact hr
      have hck_in_k : in_subtree k ck := in_subtree_child hk1 (in_subtree_refl k) hck
      have hsub_in_k : ∀ j, in_subtree ck j → in_subtree k j := by
        intro j hj
        rcases hck with h | h
        · rw [h] at hj; exact in_subtree_of_left hk1 hj
        · rw [h] at hj; exact in_subtree_of_right hj
      -- priorities below `ck` are untouched by the exchange
      have hm1_below : ∀ j x, in_subtree ck j → j ≠ ck → node_at L j = some x →
          (exchanged m e c x).priority = (m x).priority := by
        intro j x hj hne hx
        have hle := in_subtree_le hj
        refine exchanged_priority_other (fun h => ?_) (fun h => ?_)
        · have := node_at_inj hnd hx (h ▸ he); omega
        · have := node_at_inj hnd hx (h ▸ hcpos); omega
      have hch1 : children_inv (exchanged m e c) L :=
        children_inv_of_shape (exchanged_shape m e c) hch
      have hsub1 : ∀ p, (p = 2 * ck ∨ p = 2 * ck + 1) → subtree_heap (exchanged m e c) L p := by
        intro p hp j _ hj
        have hjck : in_subtree ck j := by
          rcases hp with h | h
          · rw [h] at hj; exact in_subtree_of_left (by omega) hj
          · rw [h] at hj; exact in_subtree_of_right hj
        have hjp := in_subtree_le hj
        refine heap_at_congr (fun p' x hp' hx => ?_) (subtree_heap_at hsubck hjck)
        have hp'j : in_subtree ck p' := by
          rcases hp' with h | h | h
          · rw [h]; exact hjck
          · exact in_subtree_child (by omega) hjck (Or.inl h)
          · exact in_subtree_child (by omega) hjck (Or.inr h)
        exact hm1_below p' x hp'j (by omega) hx
      obtain ⟨m', hrun', hshape', hheap', hout', hbound'⟩ :=
        max_heapify_subtree hnd (d - 1) (exchanged m e c) ck (by omega) (by omega) hckn hch1
          (hsub1 _ (Or.inl rfl)) (hsub1 _ (Or.inr rfl))
      -- cells outside the subtree at `ck` keep the priority they have after the exchange
      have hk_out : ∀ j, in_subtree ck j → node_at L j ≠ some e := by
        intro j hj h
        have := node_at_inj hnd h he
        have := in_subtree_le hj
        omega
      have he' : (m' e).priority = (m c).priority := by
        rw [hout' e hk_out, exchanged_priority_fst hec]
      -- all priorities of the subtree at `ck` are at most the old priority of `c`
      have hbound_c : ∀ j x, in_subtree ck j → node_at L j = some x →
          (m' x).priority ≤ (m c).priority := by
        refine hbound' (m c).priority (fun j x hj hx => ?_)
        by_cases hjck : j = ck
        · subst hjck
          rw [hcpos] at hx
          cases hx
          rw [exchanged_priority_snd]
          exact le_of_lt hlt
        · rw [hm1_below j x hj hjck hx]
          obtain ⟨dd, -, hdd⟩ := hj
          exact subtree_root_max hnd hsubck hcpos dd j x hdd hx
      -- the sibling of `ck` and everything below it is untouched
      have hsib : ∀ p, (p = 2 * k ∨ p = 2 * k + 1) → p ≠ ck → ∀ j x, in_subtree p j →
          node_at L j = some x → (m' x).priority = (m x).priority := by
        intro p hp hne j x hj hx
        have hjp := in_subtree_le hj
        have hnot : ¬ in_subtree ck j := by
          intro hcj
          rcases hp with h1 | h1 <;> rcases hck with h2 | h2
          · exact hne (h1.trans h2.symm)
          · rw [h1] at hj; rw [h2] at hcj; exact in_subtree_disjoint hk1 hj hcj
          · rw [h1] at hj; rw [h2] at hcj; exact in_subtree_disjoint hk1 hcj hj
          · exact hne (h1.trans h2.symm)
        rw [hout' x (fun j' hj' h => hnot ((node_at_inj hnd h hx) ▸ hj'))]
        refine exchanged_priority_other (fun h => ?_) (fun h => ?_)
        · have := node_at_inj hnd hx (h ▸ he); omega
        · have := node_at_inj hnd hx (h ▸ hcpos)
          exact hnot (this ▸ in_subtree_refl ck)
      refine ⟨m', fun fuel hf => ?_,
        fun x => same_but_priority_trans (exchanged_shape m e c x) (hshape' x), ?_, ?_, ?_⟩
      · obtain ⟨f, rfl⟩ : ∃ f, fuel = f + 1 := ⟨fuel - 1, by omega⟩
        rw [he, hrun f, ← hcpos]
        exact hrun' f (by omega)
      · intro j _ hj
        by_cases hjk : j = k
        · subst hjk
          rw [heap_at_iff]
          intro e' he''
          rw [he] at he''
          cases he''
          rw [he']
          have hdom : ∀ p, (p = 2 * j ∨ p = 2 * j + 1) →
              dominates m' (m c).priority (node_at L p) := by
            intro p hp x hx
            by_cases hpck : p = ck
            · subst hpck
              exact hbound_c p x (in_subtree_refl p) hx
            · rw [hsib p hp hpck p x (in_subtree_refl p) hx]
              rcases hp with h | h
              · rw [h, ← hleft] at hx; exact hdl x hx
              · rw [h, ← hright] at hx; exact hdr x hx
          exact ⟨hdom _ (Or.inl rfl), hdom _ (Or.inr rfl)⟩
        · have hcases : ∃ p, (p = 2 * k ∨ p = 2 * k + 1) ∧ in_subtree p j := by
            rcases in_subtree_cases hj hjk with h | h
            · exact ⟨_, Or.inl rfl, h⟩
            · exact ⟨_, Or.inr rfl, h⟩
          obtain ⟨p, hp, hpj⟩ := hcases
          by_cases hpck : p = ck
          · subst hpck
            exact subtree_heap_at hheap' hpj
          · have hsubp : subtree_heap m L p := by
              rcases hp with h | h
              · rw [h]; exact hl
              · rw [h]; exact hr
            have hp1 : 1 ≤ p := by omega
            refine heap_at_congr (fun p' x hp' hx => ?_) (subtree_heap_at hsubp hpj)
            have hp'j : in_subtree p p' := by
              rcases hp' with h | h | h
              · rw [h]; exact hpj
              · exact in_subtree_child hp1 hpj (Or.inl h)
              · exact in_subtree_child hp1 hpj (Or.inr h)
            exact hsib p hp hpck p' x hp'j hx
      · intro x hx
        rw [hout' x (fun j hj => hx j (hsub_in_k j hj))]
        refine exchanged_priority_other (fun h => ?_) (fun h => ?_)
        · exact hx k (in_subtree_refl k) (h ▸ he)
        · exact hx ck hck_in_k (h ▸ hcpos)
      · intro B hB j x hj hx
        by_cases hjk : j = k
        · subst hjk
          rw [he] at hx
          cases hx
          rw [he']
          exact hB ck c hck_in_k hcpos
        · have hcases : ∃ p, (p = 2 * k ∨ p = 2 * k + 1) ∧ in_subtree p j := by
            rcases in_subtree_cases hj hjk with h | h
            · exact ⟨_, Or.inl rfl, h⟩
            · exact ⟨_, Or.inr rfl, h⟩
          obtain ⟨p, hp, hpj⟩ := hcases
          by_cases hpck : p = ck
          · subst hpck
            refine hbound' B (fun j' x' hj' hx' => ?_) j x hpj hx
            by_cases hj'p : j' = p
            · subst hj'p
              rw [hcpos] at hx'
              cases hx'
              rw [exchanged_priority_snd]
              exact hB k e (in_subtree_refl k) he
            · rw [hm1_below j' x' hj' hj'p hx']
              exact hB j' x' (hsub_in_k j' hj') hx'
          · rw [hsib p hp hpck j x hpj hx]
            exact hB j x hj hx

/-- The function `exchange` on two different live nodes permutes the priorities along
the live sequence. -/
theorem exchanged_prios_perm {m : Mem} {L : List Nat} {e c : Nat} (hnd : L.Nodup)
    (he : e ∈ L) (hc : c ∈ L) (hec : e ≠ c) :
    (prios (exchanged m e c) L).Perm (prios m L) := by
  have hpt : ∀ x, (exchanged m e c x).priority = (m (Equiv.swap e c x)).priority := by
    intro x
    by_cases hxe : x = e
    · subst hxe; rw [Equiv.swap_apply_left, exchanged_priority_fst hec]
    · by_cases hxc : x = c
      · subst hxc; rw [Equiv.swap_apply_right, exchanged_priority_snd]
      · rw [Equiv.swap_apply_of_ne_of_ne hxe hxc, exchanged_priority_other hxe hxc]
  have hmap : prios (exchanged m e c) L =
      (L.map (Equiv.swap e c)).map (fun x => (m x).priority) := by
    simp only [prios, List.map_map]
    exact List.map_congr_left (fun x _ => hpt x)
  rw [hmap]
  refine List.Perm.map _ ?_
  rw [List.perm_ext_iff_of_nodup (List.Nodup.map (Equiv.swap e c).injective hnd) hnd]
  intro x
  simp only [List.mem_map]
  constructor
  · rintro ⟨y, hy, rfl⟩
    by_cases hye : y = e
    · subst hye; rw [Equiv.swap_apply_left]; exact hc
    · by_cases hyc : y = c
      · subst hyc; rw [Equiv.swap_apply_right]; exact he
      · rw [Equiv.swap_apply_of_ne_of_ne hye hyc]; exact hy
  · intro hx
    refine ⟨Equiv.swap e c x, ?_, Equiv.swap_apply_self e c x⟩
    by_cases hxe : x = e
    · subst hxe; rw [Equiv.swap_apply_left]; exact hc
    · by_cases hxc : x = c
      · subst hxc; rw [Equiv.swap_apply_right]; exact he
      · rw [Equiv.swap_apply_of_ne_of_ne hxe hxc]; exact hx

/-- The links behind a `later` pointer, spelled out. -/
theorem later_some {L : List Nat} {i c : Nat} (h : later L i (some c)) :
    ∃ j, ∃ (hj : j < L.length), i < j ∧ L[j] = c := by
  obtain ⟨j, hj, hij, hjc⟩ := h
  obtain ⟨_, h2⟩ := List.getElem?_eq_some.1 hjc
  exact ⟨j, hj, hij, h2⟩

/-- The invariant `later_inv` survives writes to priorities. -/
theorem later_inv_of_shape {m m' : Mem} {L : List Nat}
    (h : ∀ x, same_but_priority (m x) (m' x)) (hl : later_inv m L) : later_inv m' L := by
  intro i hi
  rw [(h _).2.2.2.1, (h _).2.2.2.2.1]
  exact hl i hi

/-- Sift-down along `later` links: `max_heapify` on the live node at index `i` returns
for every fuel above `length - i`, writes priorities only, and permutes the priorities
of the live nodes. -/
theorem max_heapify_later {L : List Nat} (hnd : L.Nodup) :
    ∀ (d : Nat) (m : Mem) (i : Nat) (hi : i < L.length), L.length - i ≤ d →
      later_inv m L →
      ∃ m', (∀ fuel, L.length - i < fuel → max_heapify fuel m (some L[i]) = .ok m') ∧
        (∀ x, same_but_priority (m x) (m' x)) ∧ (prios m' L).Perm (prios m L) ∧
        ∀ x, x ∉ L → (m' x).priority = (m x).priority
  | d, m, i, hi, hd, hlater => by
    rcases max_heapify_step m L[i] with ⟨-, -, hrun⟩ | ⟨c, hc, hlt, -, -, hrun⟩
    · refine ⟨m, fun fuel hf => ?_, fun x => same_but_priority_refl _, List.Perm.refl _,
        fun _ _ => rfl⟩
      obtain ⟨f, rfl⟩ : ∃ f, fuel = f + 1 := ⟨fuel - 1, by omega⟩
      exact hrun f
    · have hlc : later L i (some c) := by
        rcases hc with hc | hc
        · rw [← hc]; exact (hlater i hi).1
        · rw [← hc]; exact (hlater i hi).2
      obtain ⟨j, hj, hij, hjc⟩ := later_some hlc
      subst hjc
      have hec : L[i] ≠ L[j] := by
        intro h
        have := (List.Nodup.getElem_inj_iff hnd).1 h
        omega
      have hlater1 : later_inv (exchanged m L[i] L[j]) L :=
        later_inv_of_shape (exchanged_shape m L[i] L[j]) hlater
      obtain ⟨m', hrun', hshape', hperm', hout'⟩ :=
        max_heapify_later hnd (d - 1) (exchanged m L[i] L[j]) j hj (by omega) hlater1
      refine ⟨m', fun fuel hf => ?_,
        fun x => same_but_priority_trans (exchanged_shape m L[i] L[j] x) (hshape' x),
        hperm'.trans (exchanged_prios_perm hnd (List.getElem_mem _)
          (List.getElem_mem _) hec), fun x hx => ?_⟩
      · obtain ⟨f, rfl⟩ : ∃ f, fuel = f + 1 := ⟨fuel - 1, by omega⟩
        rw [hrun f]
        exact hrun' f (by omega)
      · rw [hout' x hx]
        exact exchanged_priority_other (fun h => hx (h ▸ List.getElem_mem _))
          (fun h => hx (h ▸ List.getElem_mem _))

/-- In a well-formed container with live nodes the `prev` link of the tail sentinel leads
to the last live node. -/
theorem WF_tail_prev {m : Mem} {q : pq} {L : List Nat} (hwf : WF m q L)
    (hn : 0 < L.length) : (m q.tail).prev = L[L.length - 1]? := by
  rcases List.eq_nil_or_concat L with h | ⟨init, z, h⟩
  · subst h; simp at hn
  · rw [List.concat_eq_append] at h
    subst h
    have hl := hwf.2.2.2
    have hc : q.head :: ((init ++ [z]) ++ [q.tail]) = (q.head :: init) ++ z :: q.tail :: [] := by
      simp
    rw [hc] at hl
    rw [(linked_link hl).2]
    simp

/-- The loop of `build_max_heap` started at the live node at index `i` of a well-formed
container whose cached children are `later` links: it returns for every fuel above
`length + i`, writes priorities only, and permutes the priorities of the live nodes. -/
theorem build_max_heap_loop_later {q : pq} {L : List Nat} :
    ∀ (i : Nat) (m : Mem) (hi : i < L.length), WF m q L → later_inv m L →
      ∃ m', (∀ fuel, L.length + i < fuel →
          build_max_heap_loop q fuel m (some L[i]) = .ok m') ∧
        (∀ x, same_but_priority (m x) (m' x)) ∧ (prios m' L).Perm (prios m L) ∧
        ∀ x, x ∉ L → (m' x).priority = (m x).priority
  | 0, m, hi, hwf, _ => by
    refine ⟨m, fun fuel hf => ?_, fun x => same_but_priority_refl _, List.Perm.refl _,
      fun _ _ => rfl⟩
    obtain ⟨f, rfl⟩ : ∃ f, fuel = f + 1 := ⟨fuel - 1, by omega⟩
    have hfront : (m q.head).next = some L[0] := by
      have hlen : 0 + 1 < (q.head :: (L ++ [q.tail])).length := by simp
      have h := (linked_index _ hwf.2.2.2 0 hlen).1
      have e1 : (q.head :: (L ++ [q.tail]))[0 + 1] = L[0] := by
        simp [List.getElem_append_left, hi]
      rw [e1] at h
      exact h
    simp [build_max_heap_loop, hfront]
  | i + 1, m, hi, hwf, hlater => by
    have hnd := WF_nodup hwf
    have h0 : 0 < L.length := by omega
    have hfront : (m q.head).next = some L[0] := by
      have hlen : 0 + 1 < (q.head :: (L ++ [q.tail])).length := by simp
      have h := (linked_index _ hwf.2.2.2 0 hlen).1
      have e1 : (q.head :: (L ++ [q.tail]))[0 + 1] = L[0] := by
        simp [List.getElem_append_left, h0]
      rw [e1] at h
      exact h
    have hne : (some L[i + 1] : Ptr) ≠ (m q.head).next := by
      rw [hfront]
      intro h
      have := (List.Nodup.getElem_inj_iff hnd).1 (Option.some.inj h)
      omega
    obtain ⟨m1, hrun1, hshape1, hperm1, hout1⟩ :=
      max_heapify_later hnd (L.length - (i + 1)) m (i + 1) hi (le_refl _) hlater
    have hwf1 : WF m1 q L := WF_of_shape hshape1 hwf
    have hi' : i < L.length := by omega
    have hprev : (m1 L[i + 1]).prev = some L[i] := by
      rw [(hshape1 _).1, WF_prev_index hwf (i + 1) hi, List.getElem?_cons_succ,
        List.getElem?_eq_getElem]
    obtain ⟨m', hrun', hshape', hperm', hout'⟩ :=
      build_max_heap_loop_later i m1 hi' hwf1 (later_inv_of_shape hshape1 hlater)
    refine ⟨m', fun fuel hf => ?_,
      fun x => same_but_priority_trans (hshape1 x) (hshape' x), hperm'.trans hperm1,
      fun x hx => (hout' x hx).trans (hout1 x hx)⟩
    obtain ⟨f, rfl⟩ : ∃ f, fuel = f + 1 := ⟨fuel - 1, by omega⟩
    simp only [build_max_heap_loop, hne, if_false, bind, Except.bind,
      hrun1 f (by omega), deref, hprev]
    exact hrun' f (by omega)

/-- C1 fails on the code. The container `mem_1234` is well-formed, ranks are positions
and cached children are the nodes at positions `2 * rank` and `2 * rank + 1`.
`build_max_heap` returns, the priorities along the sequence are then `1, 4, 3, 2`: the
second node was sifted, the front was not, and the front (priority `1`) is smaller than
its left child (priority `4`). -/
theorem build_max_heap_leaves_front_unsifted :
    WF mem_1234 q0 [2, 3, 4, 5] ∧ rank_inv mem_1234 [2, 3, 4, 5] ∧
      children_inv mem_1234 [2, 3, 4, 5] ∧
      ∀ fuel, ∃ m', build_max_heap (fuel + 5) mem_1234 q0 = .ok m' ∧
        prios m' [2, 3, 4, 5] = [1, 4, 3, 2] ∧ (m' 2).left = some 3 ∧
        (m' 2).priority < (m' 3).priority ∧ ¬ heap_inv m' [2, 3, 4, 5] :=
  ⟨by decide, by decide, by decide, fun _ => ⟨_, rfl, rfl, rfl, by decide, by decide⟩⟩

/-- C2 fails on the code. Scenario A never reaches `build_max_heap`: the first
`pq_push_back` on the freshly initialised container does not return. Without the
assertion `pq_back` yields the head sentinel and `pq_insert` dereferences `head.prev`,
which is `NULL`; with the assertion `pq_back` never returns. -/
theorem scenario_A_never_completes :
    (∀ fuel, push_back_build_front false fuel blank q0 scenario_A = .error .fault) ∧
      (∀ fuel, push_back_build_front true fuel blank q0 scenario_A = .error .timeout) := by
  constructor
  · intro fuel
    simp only [push_back_build_front, scenario_A, push_back_all, pq_push_back_init_faults,
      bind, Except.bind]
  · intro fuel
    simp only [push_back_build_front, scenario_A, push_back_all,
      pq_push_back_checked_diverges, bind, Except.bind]

/-- C3 fails on the code when the assertion of `pq_front` is evaluated. The container
`mem_98` is well-formed, non-empty and a max-heap by position;
`heap_extract_max` calls `pq_pop_front`, which calls `pq_front`, and never returns. -/
theorem heap_extract_max_checked_never_returns :
    WF mem_98 q0 [2, 3] ∧ heap_pos_inv mem_98 [2, 3] ∧
      ∀ fuel, heap_extract_max true fuel mem_98 q0 = .error .timeout := by
  refine ⟨by decide, by decide, fun fuel => ?_⟩
  simp only [heap_extract_max, pq_pop_front, pq_front_checked_diverges, bind, Except.bind]

/-- C4 fails on the code. The container `mem_98` is well-formed with ranks, cached links
and heap order in place, cell `4` is a fresh node. Without the assertion
`max_heap_insert` with priority `10` returns with the new node at position 2 of 3, in
front of the former last node, holding a priority above that of the front; with the
assertion the call never returns. -/
theorem max_heap_insert_not_last_not_percolated :
    WF mem_98 q0 [2, 3] ∧ rank_inv mem_98 [2, 3] ∧ children_inv mem_98 [2, 3] ∧
      parent_inv mem_98 [2, 3] ∧ heap_inv mem_98 [2, 3] ∧ heap_pos_inv mem_98 [2, 3] ∧
      (∀ fuel, ∃ m', max_heap_insert false (fuel + 1) mem_98 q0 (some 4) 10 = .ok m' ∧
        WF m' q0 [2, 4, 3] ∧ prios m' [2, 4, 3] = [9, 10, 8]) ∧
      (∀ fuel, max_heap_insert true fuel mem_98 q0 (some 4) 10 = .error .timeout) := by
  refine ⟨by decide, by decide, by decide, by decide, by decide, by decide,
    fun _ => ⟨_, rfl, by decide, by decide⟩, fun fuel => ?_⟩
  simp only [max_heap_insert, pq_push_back_checked_diverges, bind, Except.bind]

/-- C5 fails on the code. Scenario C stops at its first `max_heap_insert`: the
`pq_push_back` inside it does not return on the freshly initialised container, by a fatal
`NULL` dereference without the assertion and by unbounded recursion with it. -/
theorem scenario_C_never_completes :
    (∀ fuel, heap_insert_front false fuel blank q0 scenario_C = .error .fault) ∧
      (∀ fuel, heap_insert_front true fuel blank q0 scenario_C = .error .timeout) := by
  constructor
  · intro fuel
    simp only [heap_insert_front, scenario_C, max_heap_insert_all, max_heap_insert,
      pq_push_back_init_faults, bind, Except.bind]
  · intro fuel
    simp only [heap_insert_front, scenario_C, max_heap_insert_all, max_heap_insert,
      pq_push_back_checked_diverges, bind, Except.bind]

/-- C6 fails on the code. In `mem_53` the node in cell `3` is a leaf at position 2, its
cached parent is the front (priority `5`), and `10` exceeds that priority.
`heap_increase_key` returns with the node holding `10` and the front still holding `5`:
the loop guard of `percolate` is false at position 2, so nothing is exchanged. -/
theorem heap_increase_key_second_position_no_exchange :
    WF mem_53 q0 [2, 3] ∧ rank_inv mem_53 [2, 3] ∧ parent_inv mem_53 [2, 3] ∧
      children_inv mem_53 [2, 3] ∧ (mem_53 3).left = none ∧ (mem_53 3).right = none ∧
      (mem_53 3).parent = some 2 ∧ (mem_53 2).priority = 5 ∧
      ∀ fuel, ∃ m', heap_increase_key (fuel + 1) mem_53 (some 3) 10 = .ok m' ∧
        (m' 3).priority = 10 ∧ (m' 2).priority = 5 :=
  ⟨by decide, by decide, by decide, by decide, rfl, rfl, rfl, rfl,
    fun _ => ⟨_, rfl, rfl, rfl⟩⟩

/-- C7 fails on the code when the assertion of `pq_front` is evaluated. On the freshly
initialised container (no insert, no remove) `pq_size` never returns, whatever the fuel:
it starts with `pq_front`, whose assertion calls `pq_empty`, which calls `pq_front`. -/
theorem pq_size_checked_never_returns :
    WF (pq_init blank q0) q0 [] ∧
      ∀ fuel, pq_size true fuel (pq_init blank q0) q0 = .error .timeout := by
  refine ⟨by decide, fun fuel => ?_⟩
  simp only [pq_size, pq_front_checked_diverges, bind, Except.bind]

/-- C8 fails on the code. In `mem_4` the only live node (cell `2`) has rank 1. Inserting
the fresh cell `3` in front of it puts the new node at position 1 with `id = 2`;
inserting it in front of the tail sentinel puts it at position 2 with `id = 1`, one more
than the `id` of the tail, which no function ever sets. -/
theorem pq_insert_rank_is_not_position :
    WF mem_4 q0 [2] ∧ rank_inv mem_4 [2] ∧
      (∃ m', pq_insert mem_4 (some 2) (some 3) 7 = .ok m' ∧ WF m' q0 [3, 2] ∧
        (m' 3).id = 2) ∧
      (∃ m', pq_insert mem_4 (pq_tail q0) (some 3) 7 = .ok m' ∧ WF m' q0 [2, 3] ∧
        (m' 3).id = 1) :=
  ⟨by decide, by decide, ⟨_, rfl, by decide, rfl⟩, ⟨_, rfl, by decide, rfl⟩⟩

/-- C9 fails on the code. On the freshly initialised, well-formed, empty container
`pq_push_back` of the fresh cell `2` with priority `5` does not return: without the
assertion it is a fatal `NULL` dereference, with the assertion it recurses without end. -/
theorem pq_push_back_on_empty_fails :
    WF (pq_init blank q0) q0 [] ∧
      (∀ fuel, pq_push_back false fuel (pq_init blank q0) q0 (some 2) 5 = .error .fault) ∧
      (∀ fuel, pq_push_back true fuel (pq_init blank q0) q0 (some 2) 5 = .error .timeout) :=
  ⟨by decide, fun fuel => pq_push_back_init_faults fuel blank q0 (some 2) 5,
    fun fuel => pq_push_back_checked_diverges fuel _ q0 (some 2) 5⟩

/-- C10 fails on the code. On the freshly initialised, well-formed, empty container and
on the well-formed two-node container `mem_98` alike, `pq_push_front` of a fresh cell is
a fatal `NULL` dereference: it inserts in front of the head sentinel. -/
theorem pq_push_front_faults :
    WF (pq_init blank q0) q0 [] ∧
      pq_push_front (pq_init blank q0) q0 (some 2) 5 = .error .fault ∧
      WF mem_98 q0 [2, 3] ∧ pq_push_front mem_98 q0 (some 4) 5 = .error .fault :=
  ⟨by decide, rfl, by decide, rfl⟩

/-- C11 fails on the code when the assertion of `pq_front` is evaluated. On the freshly
initialised container, and on the container with one node inserted in front of the tail
sentinel, `pq_empty` never returns, whatever the fuel: it calls `pq_front`, whose
assertion calls `pq_empty`. -/
theorem pq_empty_checked_never_returns :
    WF (pq_init blank q0) q0 [] ∧
      (∀ fuel, pq_empty true fuel (pq_init blank q0) q0 = .error .timeout) ∧
      ∃ m', pq_insert (pq_init blank q0) (pq_tail q0) (some 2) 5 = .ok m' ∧ WF m' q0 [2] ∧
        ∀ fuel, pq_empty true fuel m' q0 = .error .timeout :=
  ⟨by decide, fun fuel => pq_empty_checked_diverges fuel _ q0,
    _, rfl, by decide, fun fuel => pq_empty_checked_diverges fuel _ q0⟩

/-- C14 fails on the code. In `mem_4` the cell `3` is a zeroed fresh node. After
`pq_insert` in front of the tail sentinel it has `id = tail.id + 1 = 1` and priority `7`,
but its cached `parent` and `left` are the node itself, computed while `id` was still
`0`; `parent` and `left` evaluated on the resulting memory give cell `2` and `NULL`. -/
theorem pq_insert_caches_use_stale_id :
    WF mem_4 q0 [2] ∧ (mem_4 3).id = 0 ∧
      ∃ m', pq_insert mem_4 (pq_tail q0) (some 3) 7 = .ok m' ∧
        (m' 3).id = (mem_4 q0.tail).id + 1 ∧ (m' 3).priority = 7 ∧
        (m' 3).parent = some 3 ∧ parent m' (some 3) = .ok (some 2) ∧
        (m' 3).left = some 3 ∧ left m' (some 3) = .ok none ∧
        (m' 3).right = none ∧ right m' (some 3) = .ok none :=
  ⟨by decide, rfl, _, rfl, rfl, rfl, rfl, by decide, rfl, by decide, rfl, by decide⟩

/-- C20 fails on the code. In `mem_98` and `mem_534` ranks and cached parents are in
place. On the front node `percolate` and `heap_increase_key` are fatal: the loop guard
reads `elem->prev->prev->prev` and `elem->prev->prev` is `NULL` there. On the node at
position 3 of `mem_534`, `heap_increase_key` with a key above the front's priority is
fatal too: after the exchange the loop continues at the front. -/
theorem percolate_faults_at_front :
    WF mem_98 q0 [2, 3] ∧ rank_inv mem_98 [2, 3] ∧ parent_inv mem_98 [2, 3] ∧
      (∀ fuel, percolate (fuel + 1) mem_98 (some 2) = .error .fault) ∧
      (∀ fuel, heap_increase_key (fuel + 1) mem_98 (some 2) 10 = .error .fault) ∧
      WF mem_534 q0 [2, 3, 4] ∧ rank_inv mem_534 [2, 3, 4] ∧ parent_inv mem_534 [2, 3, 4] ∧
      (∀ fuel, heap_increase_key (fuel + 2) mem_534 (some 4) 10 = .error .fault) :=
  ⟨by decide, by decide, by decide, fun _ => rfl, fun _ => rfl, by decide, by decide,
    by decide, fun _ => rfl⟩

/-- C12 holds: for a well-formed container with live sequence `L` and the live node at
index `k` (position `k + 1`), `pq_remove` returns the cell at the next position, the tail
sentinel after the last node, and leaves a well-formed container whose live sequence is
`L` without that node, the others in their original order. -/
theorem pq_remove_returns_next_and_unlinks {m : Mem} {q : pq} {L : List Nat}
    (hwf : WF m q L) (k : Nat) (hk : k < L.length) :
    ∃ m', pq_remove m (some L[k]) = .ok ((L ++ [q.tail])[k + 1]?, m') ∧
      WF m' q (L.eraseIdx k) := by
  have hwf' : WF m q (L.take k ++ L[k] :: L.drop (k + 1)) := by
    rw [← split_at_index L k hk]; exact hwf
  obtain ⟨a, b, -, -, hhd, hrem, hwf1⟩ := pq_remove_WF hwf'
  refine ⟨unlinked m a b, ?_, ?_⟩
  · rw [hrem, ← head_drop_succ L q.tail k hk, hhd]
  · rw [List.eraseIdx_eq_take_drop_succ]; exact hwf1

/-- Witness of C12 on `mem_1234`: removing the node at index 1 (cell `3`) returns cell `4`
and leaves `2, 4, 5`; removing the last node (cell `5`) returns the tail sentinel. -/
theorem pq_remove_returns_next_and_unlinks_witness :
    (∃ m', pq_remove mem_1234 (some 3) = .ok (some 4, m') ∧ WF m' q0 [2, 4, 5]) ∧
      ∃ m', pq_remove mem_1234 (some 5) = .ok (some 1, m') ∧ WF m' q0 [2, 3, 4] :=
  ⟨pq_remove_returns_next_and_unlinks (m := mem_1234) (q := q0) (L := [2, 3, 4, 5])
      (by decide) 1 (by decide),
    pq_remove_returns_next_and_unlinks (m := mem_1234) (q := q0) (L := [2, 3, 4, 5])
      (by decide) 3 (by decide)⟩

/-- C13 holds: `pq_init` yields a well-formed container without live nodes, and on a
well-formed container with live sequence `L`, for `before` a live node or the tail
sentinel and `elem` a cell outside the container, `pq_insert` returns and yields a
well-formed container whose live sequence is `L` with `elem` right in front of `before`
(at the end when `before` is the tail sentinel). -/
theorem pq_init_and_pq_insert_well_formed :
    (∀ (m : Mem) (q : pq), WF (pq_init m q) q []) ∧
      ∀ (m : Mem) (q : pq) (L : List Nat) (b e : Nat) (p : Int), WF m q L →
        (b ∈ L ∨ b = q.tail) → e ∉ q.head :: (L ++ [q.tail]) →
        ∃ m', pq_insert m (some b) (some e) p = .ok m' ∧ WF m' q (insert_before b e L) ∧
          (b = q.tail → insert_before b e L = L ++ [e]) := by
  refine ⟨pq_init_WF, fun m q L b e p hwf hb he => ?_⟩
  obtain ⟨m', hrun, hwf', -⟩ := pq_insert_WF p hwf hb he
  exact ⟨m', hrun, hwf', fun hbt =>
    insert_before_of_not_mem (hbt ▸ WF_tail_not_mem hwf)⟩

/-- Witness of C13 on `mem_1234`: inserting cell `6` in front of cell `4` gives
`2, 3, 6, 4, 5`, and inserting it in front of the tail sentinel gives `2, 3, 4, 5, 6`. -/
theorem pq_init_and_pq_insert_well_formed_witness :
    (∃ m', pq_insert mem_1234 (some 4) (some 6) 9 = .ok m' ∧ WF m' q0 [2, 3, 6, 4, 5] ∧
        (4 = q0.tail → [2, 3, 6, 4, 5] = [2, 3, 4, 5] ++ [6])) ∧
      ∃ m', pq_insert mem_1234 (some 1) (some 6) 9 = .ok m' ∧ WF m' q0 [2, 3, 4, 5, 6] ∧
        (1 = q0.tail → [2, 3, 4, 5, 6] = [2, 3, 4, 5] ++ [6]) :=
  ⟨pq_init_and_pq_insert_well_formed.2 mem_1234 q0 [2, 3, 4, 5] 4 6 9 (by decide)
      (by decide) (by decide),
    pq_init_and_pq_insert_well_formed.2 mem_1234 q0 [2, 3, 4, 5] 1 6 9 (by decide)
      (by decide) (by decide)⟩

/-- C17 holds. `pq_insert` on a well-formed container returns and leaves rank, priority
and cached heap links of every cell but the new one as they were; the only other cells it
writes are `before` (its `prev`) and the cell in front of `before` (its `next`).
`pq_remove` on a live node returns and leaves rank, priority and cached heap links of
every cell as they were, the remaining live nodes keep their order, and the only cells
it writes are the two neighbours of the node (the `next` of the one, the `prev` of the
other). Whenever `pq_pop_front` or `heap_extract_max` returns, rank, priority and cached
heap links of every cell are as they were; without the assertion both return on every
non-empty well-formed container, with the front node removed. -/
theorem insert_and_remove_frame :
    (∀ (m : Mem) (q : pq) (L : List Nat) (b e : Nat) (p : Int), WF m q L →
        (b ∈ L ∨ b = q.tail) → e ∉ q.head :: (L ++ [q.tail]) →
        ∃ m', pq_insert m (some b) (some e) p = .ok m' ∧
          (∀ x, x ≠ e → same_heap_fields (m x) (m' x)) ∧
          (∀ x, x ≠ e → x ≠ b → (m b).prev ≠ some x → m' x = m x) ∧
          (m' b).next = (m b).next ∧
          ∀ a, (m b).prev = some a → (m' a).prev = (m a).prev) ∧
      (∀ (m : Mem) (q : pq) (L : List Nat) (k : Nat) (hk : k < L.length), WF m q L →
        ∃ r m', pq_remove m (some L[k]) = .ok (r, m') ∧
          (∀ x, same_heap_fields (m x) (m' x)) ∧ WF m' q (L.eraseIdx k) ∧
          (∀ x, (m L[k]).prev ≠ some x → (m L[k]).next ≠ some x → m' x = m x) ∧
          (∀ a, (m L[k]).prev = some a → (m' a).prev = (m a).prev) ∧
          ∀ b, (m L[k]).next = some b → (m' b).next = (m b).next) ∧
      (∀ (dbg : Bool) (fuel : Nat) (m : Mem) (q : pq) (r : Ptr) (m' : Mem),
        (pq_pop_front dbg fuel m q = .ok (r, m') ∨
          heap_extract_max dbg fuel m q = .ok (r, m')) →
        ∀ x, same_heap_fields (m x) (m' x)) ∧
      ∀ (fuel : Nat) (m : Mem) (q : pq) (f : Nat) (rest : List Nat), WF m q (f :: rest) →
        ∃ m', pq_pop_front false fuel m q = .ok (some f, m') ∧
          heap_extract_max false fuel m q = .ok (some f, m') ∧
          (∀ x, same_heap_fields (m x) (m' x)) ∧ WF m' q rest := by
  refine ⟨?_, ?_, ?_, ?_⟩
  · intro m q L b e p hwf hb he
    obtain ⟨m', hrun, hwf', -, -, hframe⟩ := pq_insert_WF p hwf hb he
    have hbe : b ≠ e := by
      intro h
      apply he
      rcases hb with hb | hb
      · rw [← h]; simp [hb]
      · rw [← h, hb]; simp
    obtain ⟨a, ha, haL⟩ : ∃ a, (m b).prev = some a ∧ (a = q.head ∨ a ∈ L) := by
      rcases hb with hb | hb
      · exact WF_prev_of_mem hwf hb
      · obtain ⟨pre, a, hpre, ha⟩ := cons_eq_concat q.head L
        have hl := hwf.2.2.2
        have hc : q.head :: (L ++ [q.tail]) = pre ++ a :: b :: [] := by
          rw [← List.cons_append, hpre, hb]; simp
        rw [hc] at hl
        exact ⟨a, (linked_link hl).2, ha⟩
    have hae : a ≠ e := by
      intro h
      apply he
      rcases haL with h1 | h1
      · rw [← h, h1]; simp
      · rw [← h]; simp [h1]
    have hab : a ≠ b := by
      intro h
      have hnd := hwf.1
      have hl := hwf.2.2.2
      rcases hb with hb | hb
      · obtain ⟨s, t, rfl⟩ := List.append_of_mem hb
        obtain ⟨pre, a', hpre, -⟩ := cons_eq_concat q.head s
        have hc : q.head :: ((s ++ b :: t) ++ [q.tail]) = pre ++ a' :: b :: (t ++ [q.tail]) := by
          have : q.head :: ((s ++ b :: t) ++ [q.tail]) = (q.head :: s) ++ b :: (t ++ [q.tail]) := by
            simp
          rw [this, hpre]; simp
        rw [hc] at hnd hl
        have ha' : (m b).prev = some a' := (linked_link hl).2
        rw [ha] at ha'
        cases ha'
        simp only [List.nodup_append, List.nodup_cons, List.mem_cons, not_or] at hnd
        exact hnd.2.1.1.1 h
      · rcases haL with h1 | h1
        · simp only [List.nodup_cons, List.mem_append, List.mem_singleton, not_or] at hnd
          exact hnd.1.2 (by rw [← h1, h, hb])
        · exact WF_tail_not_mem hwf (by rw [← hb, ← h]; exact h1)
    obtain ⟨P, Lc, R, hm'⟩ := pq_insert_ok_shape ha hbe hrun
    refine ⟨m', hrun, fun x hx => ?_, fun x hxe hxb hxa => ?_, ?_, fun a' ha' => ?_⟩
    · obtain ⟨h1, h2, h3, h4, h5⟩ := hframe x hx
      exact ⟨h1, h2, h3, h4, h5⟩
    · have hxa' : x ≠ a := fun h => hxa (h ▸ ha)
      subst hm'
      simp [set_priority, set_id, set_right, set_left, set_parent, spliced, set_prev, set_next,
        hxe, hxb, hxa']
    · have hba : b ≠ a := fun h => hab h.symm
      subst hm'
      simp [spliced, hbe, hba]
    · rw [ha] at ha'
      cases ha'
      subst hm'
      simp [spliced, hae, hab]
  · intro m q L k hk hwf
    obtain ⟨a, b, hprev, hnext, hab, hrem, hwf'⟩ := pq_remove_WF_index hwf k hk
    refine ⟨_, _, hrem, fun x => by simp [same_heap_fields, unlinked], hwf',
      fun x hxa hxb => ?_, fun a' ha' => ?_, fun b' hb' => ?_⟩
    · have h1 : x ≠ a := fun h => hxa (h ▸ hprev)
      have h2 : x ≠ b := fun h => hxb (h ▸ hnext)
      simp [unlinked, set_prev, set_next, h1, h2]
    · rw [hprev] at ha'
      cases ha'
      simp [unlinked, hab]
    · have hba : b ≠ a := fun h => hab h.symm
      rw [hnext] at hb'
      cases hb'
      simp [unlinked, hba]
  · intro dbg fuel m q r m' h
    have h' : pq_pop_front dbg fuel m q = .ok (r, m') := by
      rcases h with h | h
      · exact h
      · exact h
    unfold pq_pop_front at h'
    simp only [bind, Except.bind, pure, Except.pure] at h'
    split at h'
    · cases h'
    · rename_i front hfront
      split at h'
      · cases h'
      · rename_i res hres
        simp only [Except.ok.injEq, Prod.mk.injEq] at h'
        have := pq_remove_ok_frame (show pq_remove m front = .ok (res.1, res.2) from hres)
        rw [← h'.2]; exact this
  · intro fuel m q f rest hwf
    have hfront : (m q.head).next = some f := hwf.2.2.2.1.1
    obtain ⟨a, b, -, -, -, hrem, hwf'⟩ := pq_remove_WF (s := []) (by simpa using hwf)
    have hpop : pq_pop_front false fuel m q = .ok (some f, unlinked m a b) := by
      simp [pq_pop_front, pq_front_unchecked, hfront, hrem, bind, Except.bind, pure,
        Except.pure]
    exact ⟨unlinked m a b, hpop, hpop, fun x => by simp [same_heap_fields, unlinked],
      by simpa using hwf'⟩

/-- Witness of C17: inserting cell `4` in front of cell `3` of `mem_98`, removing the node
at index 1 of `mem_1234`, and `heap_extract_max` without the assertion on `mem_98`. -/
theorem insert_and_remove_frame_witness :
    (∃ m', pq_insert mem_98 (some 3) (some 4) 7 = .ok m' ∧
        (∀ x, x ≠ 4 → same_heap_fields (mem_98 x) (m' x)) ∧
        (∀ x, x ≠ 4 → x ≠ 3 → (mem_98 3).prev ≠ some x → m' x = mem_98 x) ∧
        (m' 3).next = (mem_98 3).next ∧
        ∀ a, (mem_98 3).prev = some a → (m' a).prev = (mem_98 a).prev) ∧
      (∃ r m', pq_remove mem_1234 (some 3) = .ok (r, m') ∧
        (∀ x, same_heap_fields (mem_1234 x) (m' x)) ∧ WF m' q0 [2, 4, 5] ∧
        (∀ x, (mem_1234 3).prev ≠ some x → (mem_1234 3).next ≠ some x → m' x = mem_1234 x) ∧
        (∀ a, (mem_1234 3).prev = some a → (m' a).prev = (mem_1234 a).prev) ∧
        ∀ b, (mem_1234 3).next = some b → (m' b).next = (mem_1234 b).next) ∧
      (∀ x, same_heap_fields (mem_98 x) (unlinked mem_98 0 3 x)) ∧
      ∃ m', pq_pop_front false 0 mem_98 q0 = .ok (some 2, m') ∧
        heap_extract_max false 0 mem_98 q0 = .ok (some 2, m') ∧
        (∀ x, same_heap_fields (mem_98 x) (m' x)) ∧ WF m' q0 [3] :=
  ⟨insert_and_remove_frame.1 mem_98 q0 [2, 3] 3 4 7 (by decide) (by decide) (by decide),
    insert_and_remove_frame.2.1 mem_1234 q0 [2, 3, 4, 5] 1 (by decide) (by decide),
    insert_and_remove_frame.2.2.1 false 0 mem_98 q0 (some 2) (unlinked mem_98 0 3)
      (Or.inr rfl),
    insert_and_remove_frame.2.2.2 0 mem_98 q0 2 [3] (by decide)⟩

/-- C15 holds: in a well-formed container, for the live node at index `k` (position
`p = k + 1`) whose `id` is `p`, `parent` returns the node at position `p / 2`: `NULL`
for `p = 1`, a live node for `p ≥ 2`; and the variable `elem` never holds the head
sentinel during the call. -/
theorem parent_returns_half_position {m : Mem} {q : pq} {L : List Nat} (hwf : WF m q L)
    (k : Nat) (hk : k < L.length) (hrank : (m L[k]).id = (k : Int) + 1) :
    parent m (some L[k]) = .ok (node_at L ((k + 1) / 2)) ∧
      (k + 1 = 1 → node_at L ((k + 1) / 2) = none) ∧
      (2 ≤ k + 1 → ∃ c, node_at L ((k + 1) / 2) = some c ∧ c ∈ L) ∧
      q.head ∉ parent_trace m (some L[k]) := by
  refine ⟨?_, ?_, ?_, ?_⟩
  · simp only [parent, deref, bind, Except.bind, hrank, parent_rounds,
      parent_loop_eval hwf _ k hk]
    unfold node_at
    by_cases h0 : k = 0
    · subst h0; simp
    · rw [if_pos (by omega), if_neg (by omega)]
      rw [show k - (k + 1 - (k + 1) / 2) = (k + 1) / 2 - 1 by omega]
  · intro h
    have : (k + 1) / 2 = 0 := by omega
    rw [this]; rfl
  · intro h
    exact node_at_some (by omega) (by omega)
  · intro hmem
    simp only [parent_trace] at hmem
    exact WF_head_not_mem hwf (parent_loop_trace_live hwf _ k hk _ hmem)

/-- Witness of C15 on `mem_1234`: the parent of the front is `NULL`, the parent of the
node at position 4 (cell `5`) is the node at position 2 (cell `3`). -/
theorem parent_returns_half_position_witness :
    (parent mem_1234 (some 2) = .ok none ∧ q0.head ∉ parent_trace mem_1234 (some 2)) ∧
      parent mem_1234 (some 5) = .ok (some 3) ∧ q0.head ∉ parent_trace mem_1234 (some 5) :=
  ⟨⟨(parent_returns_half_position (m := mem_1234) (q := q0) (L := [2, 3, 4, 5])
        (by decide) 0 (by decide) (by decide)).1,
      (parent_returns_half_position (m := mem_1234) (q := q0) (L := [2, 3, 4, 5])
        (by decide) 0 (by decide) (by decide)).2.2.2⟩,
    (parent_returns_half_position (m := mem_1234) (q := q0) (L := [2, 3, 4, 5])
      (by decide) 3 (by decide) (by decide)).1,
    (parent_returns_half_position (m := mem_1234) (q := q0) (L := [2, 3, 4, 5])
      (by decide) 3 (by decide) (by decide)).2.2.2⟩

/-- C18 holds: in a well-formed container with ranks equal to positions and cached
children at positions `2 * rank` and `2 * rank + 1`, for the live node at position `k`
whose two child subtrees are max-heaps, `max_heapify` returns (for every fuel above
`length - k`), afterwards the subtree at `k` is a max-heap, every cell that is not at a
position of that subtree keeps its priority, and nothing but priorities is written. -/
theorem max_heapify_restores_subtree {m : Mem} {q : pq} {L : List Nat} (hwf : WF m q L)
    (_hrank : rank_inv m L) (hch : children_inv m L) (k : Nat) (hk1 : 1 ≤ k)
    (hkn : k ≤ L.length) (hl : subtree_heap m L (2 * k))
    (hr : subtree_heap m L (2 * k + 1)) :
    ∃ m', (∀ fuel, L.length - k < fuel → max_heapify fuel m (node_at L k) = .ok m') ∧
      subtree_heap m' L k ∧
      (∀ x, (∀ j, in_subtree k j → node_at L j ≠ some x) →
        (m' x).priority = (m x).priority) ∧
      (∀ x, same_but_priority (m x) (m' x)) ∧ WF m' q L := by
  obtain ⟨m', hrun, hshape, hheap, hout, -⟩ :=
    max_heapify_subtree (WF_nodup hwf) (L.length - k) m k (le_refl _) hk1 hkn hch hl hr
  exact ⟨m', hrun, hheap, hout, hshape, WF_of_shape hshape hwf⟩

/-- Witness of C18 on `mem_1987` (priorities `1, 9, 8, 7`): the subtrees at positions 2
and 3 are max-heaps, so `max_heapify` on the front returns and makes the whole tree a
max-heap. -/
theorem max_heapify_restores_subtree_witness :
    ∃ m', (∀ fuel, [2, 3, 4, 5].length - 1 < fuel →
        max_heapify fuel mem_1987 (node_at [2, 3, 4, 5] 1) = .ok m') ∧
      subtree_heap m' [2, 3, 4, 5] 1 ∧
      (∀ x, (∀ j, in_subtree 1 j → node_at [2, 3, 4, 5] j ≠ some x) →
        (m' x).priority = (mem_1987 x).priority) ∧
      (∀ x, same_but_priority (mem_1987 x) (m' x)) ∧ WF m' q0 [2, 3, 4, 5] :=
  max_heapify_restores_subtree (m := mem_1987) (q := q0) (L := [2, 3, 4, 5]) (by decide)
    (by decide) (by decide) 1 (by decide) (by decide) (by decide) (by decide)

/-- C19 holds: on a well-formed container with at least one live node whose cached
children are live nodes strictly later in the sequence or `NULL`, `build_max_heap`
returns (for every fuel from twice the number of live nodes on) and writes priorities
only: every cell keeps its links, rank and cached pointers, the container stays
well-formed with the same live sequence, the multiset of the priorities of the live
nodes is the same as before, and cells outside the sequence keep their priority. -/
theorem build_max_heap_permutes_priorities {m : Mem} {q : pq} {L : List Nat}
    (hwf : WF m q L) (hne : L ≠ []) (hlater : later_inv m L) :
    ∃ m', (∀ fuel, 2 * L.length ≤ fuel → build_max_heap fuel m q = .ok m') ∧
      (∀ x, same_but_priority (m x) (m' x)) ∧ WF m' q L ∧
      (prios m' L : Multiset Int) = (prios m L : Multiset Int) ∧
      ∀ x, x ∉ L → (m' x).priority = (m x).priority := by
  have hn : 0 < L.length := List.length_pos.2 hne
  have hlast : L.length - 1 < L.length := by omega
  obtain ⟨m', hrun, hshape, hperm, hout⟩ :=
    build_max_heap_loop_later (L.length - 1) m hlast hwf hlater
  refine ⟨m', fun fuel hf => ?_, hshape, WF_of_shape hshape hwf,
    Multiset.coe_eq_coe.2 hperm, hout⟩
  unfold build_max_heap
  rw [WF_tail_prev hwf hn, List.getElem?_eq_getElem hlast]
  exact hrun fuel (by omega)

/-- Witness of C19 on `mem_1234`: `build_max_heap` returns and the priorities of the live
nodes are a rearrangement of `1, 2, 3, 4`. -/
theorem build_max_heap_permutes_priorities_witness :
    ∃ m', (∀ fuel, 2 * [2, 3, 4, 5].length ≤ fuel →
        build_max_heap fuel mem_1234 q0 = .ok m') ∧
      (∀ x, same_but_priority (mem_1234 x) (m' x)) ∧ WF m' q0 [2, 3, 4, 5] ∧
      (prios m' [2, 3, 4, 5] : Multiset Int) = (prios mem_1234 [2, 3, 4, 5] : Multiset Int) ∧
      ∀ x, x ∉ [2, 3, 4, 5] → (m' x).priority = (mem_1234 x).priority :=
  build_max_heap_permutes_priorities (m := mem_1234) (q := q0) (L := [2, 3, 4, 5])
    (by decide) (by decide) (by decide)

/-- An instance of `heap_extract_max_unchecked`: on `mem_98` the call returns cell `2`. -/
theorem heap_extract_max_unchecked_mem_98 :
    ∃ m', heap_extract_max false 0 mem_98 q0 = .ok (some 2, m') ∧
      (∀ x ∈ [2, 3], (mem_98 x).priority ≤ (mem_98 2).priority) ∧ WF m' q0 [3] ∧
      2 ∉ [3] :=
  heap_extract_max_unchecked 0 (by decide) (by decide)

/-- An instance of `pq_size_bookkeeping_unchecked`: two appends, one insert in front of the
first node and one remove leave a size of two. -/
theorem pq_size_bookkeeping_unchecked_example :
    ∃ m', run_ops (pq_init blank q0)
        [.insert 1 2 4, .insert 1 3 1, .insert 2 4 3, .remove 3] = .ok m' ∧
      ∀ fuel, 2 < fuel → pq_size false fuel m' q0 = .ok 2 :=
  pq_size_bookkeeping_unchecked blank q0
    [.insert 1 2 4, .insert 1 3 1, .insert 2 4 3, .remove 3] (by decide)


/-- On a non-empty container `pq_push_back` without the assertion returns, with the new
node in front of the former last node instead of behind it. -/
theorem pq_push_back_inserts_before_last :
    WF mem_1234 q0 [2, 3, 4, 5] ∧
      ∃ m', pq_push_back false 0 mem_1234 q0 (some 6) 5 = .ok m' ∧
        WF m' q0 [2, 3, 4, 6, 5] ∧ (m' q0.tail).prev = some 5 :=
  ⟨by decide, _, rfl, by decide, rfl⟩

/-- On the freshly initialised container `build_max_heap` is fatal: the loop starts at
the head sentinel and walks off its `prev` link. -/
theorem build_max_heap_empty_faults (fuel : Nat) :
    build_max_heap (fuel + 3) (pq_init blank q0) q0 = .error .fault := rfl

/-- On the front node `percolate` is fatal: `elem->prev->prev` is `NULL` there and the
loop guard reads through it. -/
theorem percolate_front_faults (fuel : Nat) :
    percolate (fuel + 1) mem_98 (some 2) = .error .fault := rfl

/-- Without the assertion `pq_size` counts the live nodes, zero included. -/
theorem pq_size_unchecked_examples :
    pq_size false 1 (pq_init blank q0) q0 = .ok 0 ∧ pq_size false 3 mem_98 q0 = .ok 2 ∧
      pq_size false 5 mem_1234 q0 = .ok 4 :=
  ⟨rfl, rfl, rfl⟩

/-- On `mem_1987` the sift-down of the front ends with priorities `9, 7, 8, 1`. -/
theorem max_heapify_mem_1987 (fuel : Nat) :
    (max_heapify (fuel + 3) mem_1987 (some 2)).map (fun m' => prios m' [2, 3, 4, 5]) =
      .ok [9, 7, 8, 1] := rfl

/-- Without the assertion `pq_empty` answers `true` right after `pq_init` and `false`
once a node has been inserted in front of the tail sentinel. -/
theorem pq_empty_unchecked_examples :
    pq_empty false 0 (pq_init blank q0) q0 = .ok true ∧
      ∃ m', pq_insert (pq_init blank q0) (pq_tail q0) (some 2) 5 = .ok m' ∧
        pq_empty false 0 m' q0 = .ok false :=
  ⟨rfl, _, rfl, rfl⟩

/-- On `mem_534` the node at position 2 stays where it is under `heap_increase_key`, and
the call returns: the loop guard of `percolate` is false there. -/
theorem heap_increase_key_second_position_mem_534 (fuel : Nat) :
    (heap_increase_key (fuel + 1) mem_534 (some 3) 10).map
      (fun m' => prios m' [2, 3, 4]) = .ok [5, 10, 4] := rfl

end PintosPQ
